import Mathlib

set_option maxHeartbeats 1000000

/-!
Verification of the master/worker dispatch engine
(`ClusterMasterRequestProcessor` in
`src/lib/internal/transport/express/ExpressRequestProcessor.ts`).

The embedding covers:
* the TinyQueue binary heap holding pending `MessageType` work items,
  together with the comparator from the `messages` field initializer;
* the two in-flight tables `commands` / `events` (JS `Map`s, modelled as
  association lists that keep insertion order, as `Map` iteration does);
* `assignWorker` (worker scan — whose `if (worker.isConnected)` guard
  references the method without calling it and is therefore always
  truthy — departed-worker entry purge, saturation filter, random pick;
  the random draw is an explicit `pick : Nat` parameter,
  `Math.floor(Math.random() * n)` being some index `pick % n < n`);
* `startMessage`, `invokeCommand` / `invokeEvent`;
* the worker-message handler installed by `attachEvents` in `run`;
* `reportQueueLength` and the health indicator registered in the
  constructor.

Deferred results (`lib/internal/util/Deferred.ts`) are not part of the
sources; their single-resolution behaviour is modelled from the spec.
-/

/-! ## Data model -/

/-- Payload of a handler outcome (`HandlerResult` / `HandlerResult[]`),
opaque to the engine. -/
abbrev Outcome := Int

/-- State of a `Deferred`. -/
inductive DeferredState
  | pending
  | resolvedD (v : Outcome)
  | rejectedD (v : Outcome)
  deriving DecidableEq

/-- Modelled from the spec: `Deferred` (`lib/internal/util/Deferred.ts`, not
among the sources) is a single-resolution future; exactly one of
`resolve`/`reject` takes effect, later calls are no-ops (§4.5). -/
def DeferredState.resolveD : DeferredState → Outcome → DeferredState
  | .pending, v => .resolvedD v
  | s, _ => s

/-- Modelled from the spec: the rejection half of `Deferred` (§4.5). -/
def DeferredState.rejectD : DeferredState → Outcome → DeferredState
  | .pending, v => .rejectedD v
  | s, _ => s

/-- The tracking data created at enqueue time: the identity of the
`Deferred` handed to the caller and the identity of the `MessageClient`
held by the execution context (class `Dispatched` in the source, with the
object references replaced by identities). -/
structure Dispatched where
  resultId : Nat
  clientId : Nat
  deriving DecidableEq

/-- A `MasterMessage` as queued: its `type` string and the
`context.invocationId` the master reads from it.  The remaining payload is
opaque to the dispatch engine. -/
structure MasterMessage where
  type : String
  invocationId : String
  deriving DecidableEq

/-- Element of the `messages` TinyQueue (interface `MessageType`). -/
structure MessageType where
  message : MasterMessage
  dispatched : Dispatched
  ts : Int
  deriving DecidableEq

instance : Inhabited Dispatched := ⟨⟨0, 0⟩⟩
instance : Inhabited MasterMessage := ⟨⟨"", ""⟩⟩
instance : Inhabited MessageType := ⟨⟨default, default, 0⟩⟩

/-- The TinyQueue comparator from the `messages` field initializer:
commands sort ahead of everything else, ties by enqueue timestamp. -/
def messagesCompare (a b : MessageType) : Int :=
  if a.message.type = "atomist:command" ∧ b.message.type ≠ "atomist:command" then -1
  else if a.message.type ≠ "atomist:command" ∧ b.message.type = "atomist:command" then 1
  else a.ts - b.ts

/-! ## TinyQueue

A faithful model of the `tinyqueue` binary heap the master instantiates:
`data` is the backing JS array, `push` appends then sifts up (`_up`),
`pop` moves the last element to the root and sifts down (`_down`). -/

namespace TinyQueue

variable {α : Type} [Inhabited α]

/-- JS array read `data[i]` (always in bounds where used). -/
def geD (l : List α) (i : Nat) : α := l.getD i default

/-- The loop of `_up`, with an explicit fuel so the recursion is
structural (the loop runs at most `pos` times: the position strictly
decreases toward the root). With `pos ≤ fuel` the fuel never runs out:
the fuel-exhausted arm is only reached at `pos = 0`, where it places the
item exactly as the loop exit does. -/
def upAux (cmp : α → α → Int) : Nat → List α → α → Nat → List α
  | 0, data, item, pos => data.set pos item
  | fuel + 1, data, item, pos =>
    if pos = 0 then data.set 0 item
    else
      let parent := (pos - 1) / 2
      let current := geD data parent
      if 0 ≤ cmp item current then data.set pos item
      else upAux cmp fuel (data.set pos current) item parent

/-- `_up(pos)`: bubble `item` toward the root while it sorts strictly
before its parent, shifting parents down into the hole. -/
def up (cmp : α → α → Int) (data : List α) (item : α) (pos : Nat) : List α :=
  upAux cmp pos data item pos

/-- The loop of `_down`, with fuel (the hole index strictly increases and
is bounded by `len`, so `len` steps of fuel always suffice; the
fuel-exhausted arm is only reached once `pos` is a leaf, where it places
the item exactly as the loop exit does). -/
def downAux (cmp : α → α → Int) : Nat → Nat → List α → α → Nat → List α
  | 0, _, data, item, pos => data.set pos item
  | fuel + 1, len, data, item, pos =>
    if pos < len / 2 then
      let lft := 2 * pos + 1
      let rgt := lft + 1
      if rgt < len ∧ cmp (geD data rgt) (geD data lft) < 0 then
        if 0 ≤ cmp (geD data rgt) item then data.set pos item
        else downAux cmp fuel len (data.set pos (geD data rgt)) item rgt
      else
        if 0 ≤ cmp (geD data lft) item then data.set pos item
        else downAux cmp fuel len (data.set pos (geD data lft)) item lft
    else data.set pos item

/-- `_down(pos)`: sink `item` while some child sorts strictly before it,
shifting the smaller child up into the hole.  (`len` is `this.length`;
the JS `best`/`left` selection is unfolded into the two branches.) -/
def down (cmp : α → α → Int) (len : Nat) (data : List α) (item : α) (pos : Nat) : List α :=
  downAux cmp len len data item pos

/-- `push(item)`: append, then `_up(this.length - 1)`. -/
def push (cmp : α → α → Int) (q : List α) (item : α) : List α :=
  up cmp (q ++ [item]) item q.length

/-- `pop()`: return `data[0]`, move the last element to the root and
`_down(0)` (or just shrink when one element remains). -/
def pop (cmp : α → α → Int) (q : List α) : Option (α × List α) :=
  match q with
  | [] => none
  | top :: _ =>
    let bottom := geD q (q.length - 1)
    let rest := q.dropLast
    if rest.length = 0 then some (top, rest)
    else some (top, down cmp rest.length (rest.set 0 bottom) bottom 0)

/-- The binary-heap ordering invariant of the backing array. -/
def IsHeap (cmp : α → α → Int) (l : List α) : Prop :=
  ∀ i j : Nat, j < l.length → (j = 2 * i + 1 ∨ j = 2 * i + 2) →
    cmp (geD l i) (geD l j) ≤ 0

/-- Intermediate state of `_up`: the heap property holds away from the
hole `pos`, `item` fits above the hole's children, and the hole's parent
fits above the hole's children (so it may move down into the hole). -/
structure UpInv (cmp : α → α → Int) (l : List α) (pos : Nat) (item : α) : Prop where
  heapAway : ∀ i j, j < l.length → (j = 2 * i + 1 ∨ j = 2 * i + 2) →
    i ≠ pos → j ≠ pos → cmp (geD l i) (geD l j) ≤ 0
  itemChildren : ∀ j, j < l.length → (j = 2 * pos + 1 ∨ j = 2 * pos + 2) →
    cmp item (geD l j) ≤ 0
  parentChildren : ∀ j, j < l.length → (j = 2 * pos + 1 ∨ j = 2 * pos + 2) →
    0 < pos → cmp (geD l ((pos - 1) / 2)) (geD l j) ≤ 0

/-- Intermediate state of `_down`: the heap property holds away from the
hole `pos`, and the hole's parent fits above both `item` and the hole's
children. -/
structure DownInv (cmp : α → α → Int) (len : Nat) (l : List α) (pos : Nat) (item : α) : Prop where
  len_eq : l.length = len
  heapAway : ∀ i j, j < len → (j = 2 * i + 1 ∨ j = 2 * i + 2) →
    i ≠ pos → j ≠ pos → cmp (geD l i) (geD l j) ≤ 0
  parentItem : 0 < pos → cmp (geD l ((pos - 1) / 2)) item ≤ 0
  parentChildren : 0 < pos → ∀ j, j < len → (j = 2 * pos + 1 ∨ j = 2 * pos + 2) →
    cmp (geD l ((pos - 1) / 2)) (geD l j) ≤ 0

end TinyQueue

/-! ## Association maps

JS `Map`s (`commands`, `events`, and the store of outstanding `Deferred`s)
modelled as association lists in insertion order: `Map.set` overwrites in
place for an existing key and appends otherwise, `Map.delete` removes the
key, iteration (`keys()`, `forEach`) follows list order. -/

namespace AMap

variable {κ ν : Type} [DecidableEq κ]

/-- `Map.get` (partial read). -/
def get? (m : List (κ × ν)) (k : κ) : Option ν :=
  (m.find? (fun p => p.1 = k)).map (·.2)

/-- `Map.has`. -/
def has (m : List (κ × ν)) (k : κ) : Bool :=
  (m.find? (fun p => p.1 = k)).isSome

/-- `Map.set`: replace in place when the key exists, append otherwise. -/
def set (m : List (κ × ν)) (k : κ) (v : ν) : List (κ × ν) :=
  if has m k then m.map (fun p => if p.1 = k then (k, v) else p) else m ++ [(k, v)]

/-- `Map.delete`. -/
def del (m : List (κ × ν)) (k : κ) : List (κ × ν) :=
  m.filter (fun p => ¬ p.1 = k)

/-- `Map.keys()` in iteration order. -/
def keys (m : List (κ × ν)) : List κ := m.map (·.1)

end AMap

/-! ## Master state -/

/-- A `PendingEntry` of the in-flight tables: the `Dispatched` tracking
data plus the id of the worker the item was sent to. -/
structure Entry where
  dispatched : Dispatched
  worker : Nat
  deriving DecidableEq

instance : Inhabited Entry := ⟨⟨default, 0⟩⟩

/-- A `cluster.Worker` as the master sees it: its id and the actual
connection state its `isConnected()` method would report.  The master's
scan never observes this flag (it tests the method reference, which is
always truthy); it is carried so that the divergence between pool
membership and liveness is expressible. -/
structure ClusterWorker where
  id : Nat
  isConnected : Bool
  deriving DecidableEq

instance : Inhabited ClusterWorker := ⟨⟨0, false⟩⟩

/-- The configuration the dispatch engine reads:
`maxConcurrentPerWorker`, `configuration.statsd.enabled` and whether a
statsd `__instance` is present. -/
structure Config where
  maxConcurrentPerWorker : Nat
  statsdEnabled : Bool
  statsdInstance : Bool
  deriving DecidableEq

/-- The mutable state of `ClusterMasterRequestProcessor`: the `messages`
TinyQueue backing array, the two in-flight tables, the worker pool
(`cluster.workers`), and the states of the `Deferred`s handed out to
callers (owned by the callers in the source; tracked here by `resultId`
so that purges and resolutions can be observed). -/
structure MasterState where
  messages : List MessageType
  commands : List (String × Entry)
  events : List (String × Entry)
  workers : List ClusterWorker
  deferreds : List (Nat × DeferredState)
  nextDeferredId : Nat
  deriving DecidableEq

/-- State before `run` has forked anything and before any submission. -/
def initialState : MasterState := ⟨[], [], [], [], [], 0⟩

/-- The workers the `for … in` scan at the top of `assignWorker`
collects.  Its guard reads `if (worker.isConnected)` — the
`cluster.Worker.isConnected` *method* referenced without call
parentheses.  In JS a function object is always truthy, so the test
passes for every worker currently in `cluster.workers`, connected or
not: the scan keeps the whole pool.  (A worker leaves `cluster.workers`
only when its process has exited; mere disconnection keeps it in the
pool with `isConnected() === false`, which this test never observes.) -/
def candidateWorkers (st : MasterState) : List ClusterWorker :=
  st.workers

/-- Number of entries of one table assigned to worker `wid`. -/
def tcount (tbl : List (String × Entry)) (wid : Nat) : Nat :=
  (tbl.filter (fun e => e.2.worker = wid)).length

/-- Entries across both tables assigned to worker `wid` — what the
`forEach` scans of `assignWorker` accumulate into `worker.messages` for a
worker present in the pool. -/
def entryCount (commands events : List (String × Entry)) (wid : Nat) : Nat :=
  tcount events wid + tcount commands wid

/-- Removal of the `deadEvents` / `deadCommands` collected by the scans:
every entry whose assigned worker is not among `live` (in the program:
no longer present in `cluster.workers`) is deleted. -/
def purgeDead (tbl : List (String × Entry)) (live : List ClusterWorker) : List (String × Entry) :=
  tbl.filter (fun e => live.any (fun w => w.id = e.2.worker))

/-- `assignWorker`: collect the workers of `cluster.workers` (the
`isConnected` guard is vacuously truthy — see `candidateWorkers`); count
the entries of both tables per pool worker, deleting entries of departed
workers as a side effect; keep workers strictly below
`maxConcurrentPerWorker`; return a random one of those, or none.  The
fold over the tables that increments `worker.messages` yields exactly
`entryCount` of the purged tables (an entry increments a counter iff its
worker is in the pool, i.e. iff it survives the purge).
`Math.floor(Math.random() * n)` is an arbitrary index below `n`,
modelled by the explicit draw `pick % n`. -/
def assignWorker (st : MasterState) (maxConcurrentPerWorker : Nat) (pick : Nat) :
    Option ClusterWorker × MasterState :=
  let pool := candidateWorkers st
  let events2 := purgeDead st.events pool
  let commands2 := purgeDead st.commands pool
  let st2 := { st with events := events2, commands := commands2 }
  let eligible := pool.filter (fun w => entryCount commands2 events2 w.id < maxConcurrentPerWorker)
  if eligible.isEmpty then (none, st2)
  else (some (eligible.getD (pick % eligible.length) default), st2)

/-- `startMessage`: when the queue is non-empty and `assignWorker` finds
a worker, pop one item, track it in the table of its class keyed by its
`context.invocationId`, and transmit it (`worker.send`, returned as the
second component).  The trailing `reportQueueLength()` call of the source
only emits gauges and is modelled separately. -/
def startMessage (cfg : Config) (st : MasterState) (pick : Nat) :
    MasterState × Option (MessageType × Nat) :=
  if st.messages.length > 0 then
    match assignWorker st cfg.maxConcurrentPerWorker pick with
    | (some w, st2) =>
      match TinyQueue.pop messagesCompare st2.messages with
      | some (m, rest) =>
        let st3 := { st2 with messages := rest }
        if m.message.type = "atomist:command" then
          ({ st3 with commands := AMap.set st3.commands m.message.invocationId ⟨m.dispatched, w.id⟩ },
           some (m, w.id))
        else if m.message.type = "atomist:event" then
          ({ st3 with events := AMap.set st3.events m.message.invocationId ⟨m.dispatched, w.id⟩ },
           some (m, w.id))
        else (st3, some (m, w.id))
      | none => (st2, none)
    | (none, st2) => (st2, none)
  else (st, none)

/-- `invokeCommand`: create a fresh `Deferred` handed to the caller, push
the wrapped command with `ts = new Date().getTime()` (the wall-clock
reading is the explicit parameter `ts`), then `startMessage`. -/
def invokeCommand (cfg : Config) (st : MasterState) (invId : String) (clientId : Nat)
    (ts : Int) (pick : Nat) : MasterState :=
  let d : Dispatched := ⟨st.nextDeferredId, clientId⟩
  let st1 := { st with
    messages := TinyQueue.push messagesCompare st.messages ⟨⟨"atomist:command", invId⟩, d, ts⟩,
    deferreds := AMap.set st.deferreds st.nextDeferredId .pending,
    nextDeferredId := st.nextDeferredId + 1 }
  (startMessage cfg st1 pick).1

/-- `invokeEvent`: the event twin of `invokeCommand`. -/
def invokeEvent (cfg : Config) (st : MasterState) (invId : String) (clientId : Nat)
    (ts : Int) (pick : Nat) : MasterState :=
  let d : Dispatched := ⟨st.nextDeferredId, clientId⟩
  let st1 := { st with
    messages := TinyQueue.push messagesCompare st.messages ⟨⟨"atomist:event", invId⟩, d, ts⟩,
    deferreds := AMap.set st.deferreds st.nextDeferredId .pending,
    nextDeferredId := st.nextDeferredId + 1 }
  (startMessage cfg st1 pick).1

/-- Resolve the deferred with identity `id` (no-op on the rest). -/
def resolveDeferred (ds : List (Nat × DeferredState)) (id : Nat) (v : Outcome) :
    List (Nat × DeferredState) :=
  ds.map (fun p => if p.1 = id then (p.1, p.2.resolveD v) else p)

/-- Reject the deferred with identity `id` (no-op on the rest). -/
def rejectDeferred (ds : List (Nat × DeferredState)) (id : Nat) (v : Outcome) :
    List (Nat × DeferredState) :=
  ds.map (fun p => if p.1 = id then (p.1, p.2.rejectD v) else p)

/-- The table/deferred update of the `atomist:command_success` branch
(run from both the listener `then` and `catch` continuations): when the
invocation id is tracked, resolve its deferred and delete the entry;
otherwise do nothing. -/
def commandSuccessStep (st : MasterState) (invId : String) (outcome : Outcome) : MasterState :=
  match AMap.get? st.commands invId with
  | some e =>
    { st with commands := AMap.del st.commands invId,
              deferreds := resolveDeferred st.deferreds e.dispatched.resultId outcome }
  | none => st

/-- The `atomist:command_failure` branch: reject instead of resolve. -/
def commandFailureStep (st : MasterState) (invId : String) (outcome : Outcome) : MasterState :=
  match AMap.get? st.commands invId with
  | some e =>
    { st with commands := AMap.del st.commands invId,
              deferreds := rejectDeferred st.deferreds e.dispatched.resultId outcome }
  | none => st

/-- The `atomist:event_success` branch, against the `events` table. -/
def eventSuccessStep (st : MasterState) (invId : String) (outcome : Outcome) : MasterState :=
  match AMap.get? st.events invId with
  | some e =>
    { st with events := AMap.del st.events invId,
              deferreds := resolveDeferred st.deferreds e.dispatched.resultId outcome }
  | none => st

/-- The `atomist:event_failure` branch. -/
def eventFailureStep (st : MasterState) (invId : String) (outcome : Outcome) : MasterState :=
  match AMap.get? st.events invId with
  | some e =>
    { st with events := AMap.del st.events invId,
              deferreds := rejectDeferred st.deferreds e.dispatched.resultId outcome }
  | none => st

/-- An IPC message from a worker: its `type` (absent when the field is
missing), the `context.invocationId` the master reads through the cls
namespace, the outcome payload, and whether `data.destinations` is a
non-empty array (the `atomist:message` branch chooses `send` over
`respond` on that test). -/
structure WorkerMessage where
  type : Option String
  invocationId : String
  data : Outcome
  hasDestinations : Bool
  deriving DecidableEq

/-- JS `String.prototype.startsWith`: a character-wise prefix test
(equivalent to Lean's `String.startsWith`, but defined by structural
recursion on the character lists so that it evaluates). -/
def strStartsWith (s p : String) : Bool := p.data.isPrefixOf s.data

/-- The externally observable action of processing one worker message
(the state change is returned separately). -/
inductive WorkerEffect
  | noop
  | onlineResolved
  | forwardSend (clientId : Nat)
  | forwardRespond (clientId : Nat)
  | droppedMissingClient
  | statusSent (data : Outcome)
  | exitProcess (code : Outcome)
  deriving DecidableEq

/-- The `worker.on("message", …)` handler installed by `attachEvents` in
`run`: `atomist:online` resolves the readiness barrier; messages without
an `atomist:` type are dropped; `atomist:message` forwards through the
message client of the tracked entry (commands table first);
`atomist:status` goes to the websocket; the four outcome kinds run their
table step and re-enter `startMessage`; `atomist:shutdown` exits the
process; anything else falls through the `else if` chain untouched. -/
def handleWorkerMessage (cfg : Config) (st : MasterState) (msg : WorkerMessage) (pick : Nat) :
    MasterState × WorkerEffect :=
  if msg.type = some "atomist:online" then (st, .onlineResolved)
  else if msg.type = none ∨ ¬ strStartsWith (msg.type.getD "") "atomist:" then (st, .noop)
  else if msg.type = some "atomist:message" then
    match AMap.get? st.commands msg.invocationId with
    | some e =>
      (st, if msg.hasDestinations then .forwardSend e.dispatched.clientId
           else .forwardRespond e.dispatched.clientId)
    | none =>
      match AMap.get? st.events msg.invocationId with
      | some e =>
        (st, if msg.hasDestinations then .forwardSend e.dispatched.clientId
             else .forwardRespond e.dispatched.clientId)
      | none => (st, .droppedMissingClient)
  else if msg.type = some "atomist:status" then (st, .statusSent msg.data)
  else if msg.type = some "atomist:command_success" then
    ((startMessage cfg (commandSuccessStep st msg.invocationId msg.data) pick).1, .noop)
  else if msg.type = some "atomist:command_failure" then
    ((startMessage cfg (commandFailureStep st msg.invocationId msg.data) pick).1, .noop)
  else if msg.type = some "atomist:event_success" then
    ((startMessage cfg (eventSuccessStep st msg.invocationId msg.data) pick).1, .noop)
  else if msg.type = some "atomist:event_failure" then
    ((startMessage cfg (eventFailureStep st msg.invocationId msg.data) pick).1, .noop)
  else if msg.type = some "atomist:shutdown" then (st, .exitProcess msg.data)
  else (st, .noop)

/-- One gauge call on the statsd client. -/
structure GaugeEmission where
  stat : String
  value : Nat
  deriving DecidableEq

/-- `reportQueueLength`: when statsd is enabled and an `__instance`
exists, emit the literal queue length and table sizes; otherwise emit
nothing.  The source mutates no engine state here, which the model makes
explicit by returning the state untouched. -/
def reportQueueLength (cfg : Config) (st : MasterState) : MasterState × List GaugeEmission :=
  if cfg.statsdEnabled then
    if cfg.statsdInstance then
      (st, [⟨"work_queue.pending", st.messages.length⟩,
            ⟨"work_queue.events", st.events.length⟩,
            ⟨"work_queue.commands", st.commands.length⟩])
    else (st, [])
  else (st, [])

/-- Status values of the registered health indicator. -/
inductive HealthStatusM
  | up
  | down
  deriving DecidableEq

/-- Report of the health indicator. -/
structure HealthReport where
  status : HealthStatusM
  commands : List String
  events : List String
  deriving DecidableEq

/-- The health indicator registered in the constructor: `Up` when the
websocket lifecycle is connected and a registration is present, `Down`
otherwise; either way the detail carries the keys of both tables. -/
def healthIndicator (connected : Bool) (registered : Bool) (st : MasterState) : HealthReport :=
  let cmds := AMap.keys st.commands
  let evts := AMap.keys st.events
  if connected && registered then ⟨.up, cmds, evts⟩ else ⟨.down, cmds, evts⟩

/-- A worker joining `cluster.workers` (fork + `online`). -/
def addWorker (st : MasterState) (wid : Nat) : MasterState :=
  { st with workers := st.workers ++ [⟨wid, true⟩] }

/-- A worker losing its IPC channel (`isConnected` flips false). -/
def disconnectWorker (st : MasterState) (wid : Nat) : MasterState :=
  { st with workers := st.workers.map (fun w => if w.id = wid then ⟨w.id, false⟩ else w) }

/-- A worker process exiting (it leaves `cluster.workers`). -/
def removeWorker (st : MasterState) (wid : Nat) : MasterState :=
  { st with workers := st.workers.filter (fun w => ¬ w.id = wid) }

/-- The states the master can reach: submissions (`invokeCommand` /
`invokeEvent`), worker replies, and the worker lifecycle events wired up
in `run` (`cluster.on("online")` re-enters `startMessage`;
disconnect/exit only change the pool — the purge happens inside the next
`assignWorker`). -/
inductive Reachable (cfg : Config) : MasterState → Prop
  | init : Reachable cfg initialState
  | cmd (st : MasterState) (invId : String) (clientId : Nat) (ts : Int) (pick : Nat) :
      Reachable cfg st → Reachable cfg (invokeCommand cfg st invId clientId ts pick)
  | evt (st : MasterState) (invId : String) (clientId : Nat) (ts : Int) (pick : Nat) :
      Reachable cfg st → Reachable cfg (invokeEvent cfg st invId clientId ts pick)
  | reply (st : MasterState) (msg : WorkerMessage) (pick : Nat) :
      Reachable cfg st → Reachable cfg (handleWorkerMessage cfg st msg pick).1
  | workerOnline (st : MasterState) (wid : Nat) (pick : Nat) :
      Reachable cfg st → Reachable cfg (startMessage cfg (addWorker st wid) pick).1
  | workerDisconnect (st : MasterState) (wid : Nat) :
      Reachable cfg st → Reachable cfg (disconnectWorker st wid)
  | workerExit (st : MasterState) (wid : Nat) :
      Reachable cfg st → Reachable cfg (removeWorker st wid)

/-- The inductive state invariant: the queue array satisfies the heap
invariant, no worker id carries more than `maxConcurrentPerWorker`
in-flight entries, and each table has distinct keys. -/
def MasterInv (cfg : Config) (st : MasterState) : Prop :=
  TinyQueue.IsHeap messagesCompare st.messages ∧
  (∀ wid, entryCount st.commands st.events wid ≤ cfg.maxConcurrentPerWorker) ∧
  (AMap.keys st.commands).Nodup ∧ (AMap.keys st.events).Nodup

/-! ## Concrete scenarios

States used to exercise the theorems on explicit inputs. -/

/-- A configuration with `maxConcurrentPerWorker = 4` (the source default)
and statsd off. -/
def cfgW : Config := ⟨4, false, false⟩

/-- An event submitted at t=0, then a command at t=5, with no worker
forked yet: both stay queued. -/
def stQueuedEC : MasterState :=
  invokeCommand cfgW (invokeEvent cfgW initialState "E" 0 0 0) "C" 0 5 0

/-- Two commands with strictly increasing timestamps, no worker yet. -/
def stQueuedAB : MasterState :=
  invokeCommand cfgW (invokeCommand cfgW initialState "A" 0 1 0) "B" 0 2 0

/-- Two commands (t=0 and t=1) queued while no worker exists. -/
def stQueuedAB0 : MasterState :=
  invokeCommand cfgW (invokeCommand cfgW initialState "A" 0 0 0) "B" 0 1 0

/-- Three commands enqueued in the order A, B, C during the same
millisecond (equal `new Date().getTime()` readings). -/
def msgTieA : MessageType := ⟨⟨"atomist:command", "A"⟩, ⟨0, 0⟩, 0⟩

/-- Second command of the same-millisecond trio. -/
def msgTieB : MessageType := ⟨⟨"atomist:command", "B"⟩, ⟨1, 0⟩, 0⟩

/-- Third command of the same-millisecond trio. -/
def msgTieC : MessageType := ⟨⟨"atomist:command", "C"⟩, ⟨2, 0⟩, 0⟩

/-- The backing array after pushing A, B, C in that order. -/
def tieQueue : List MessageType :=
  TinyQueue.push messagesCompare
    (TinyQueue.push messagesCompare
      (TinyQueue.push messagesCompare [] msgTieA) msgTieB) msgTieC

/-- A state whose pool holds the unsaturated worker 1, with one
in-flight command and one in-flight event both assigned to worker id 9,
which is not in the pool (its process exited). -/
def stDead : MasterState :=
  ⟨[], [("abc", ⟨⟨0, 7⟩, 9⟩)], [("evt1", ⟨⟨5, 8⟩, 9⟩)], [⟨1, true⟩],
    [(0, .pending), (5, .pending)], 6⟩

/-- A state tracking one in-flight command `"abc"` on connected worker 1. -/
def stCmdTracked : MasterState :=
  ⟨[], [("abc", ⟨⟨0, 7⟩, 1⟩)], [], [⟨1, true⟩], [(0, .pending)], 1⟩

/-- A state whose only pool worker (id 1) has disconnected but whose
process has not exited, so it is still present in `cluster.workers`; the
command `"abc"` is in flight on it. -/
def stDisc : MasterState :=
  ⟨[], [("abc", ⟨⟨0, 7⟩, 1⟩)], [], [⟨1, false⟩], [(0, .pending)], 1⟩

/-! ## Theorems

### List and comparator groundwork -/

namespace TinyQueue

variable {α : Type} [Inhabited α]

theorem geD_set_eq (l : List α) (i : Nat) (a : α) (h : i < l.length) :
    geD (l.set i a) i = a := by
  simp [geD, List.getD_eq_getElem?_getD, List.getElem?_set, h]

theorem geD_set_ne (l : List α) {i j : Nat} (a : α) (h : i ≠ j) :
    geD (l.set i a) j = geD l j := by
  simp [geD, List.getD_eq_getElem?_getD, List.getElem?_set_ne h]

theorem geD_append_lt (l l' : List α) {i : Nat} (h : i < l.length) :
    geD (l ++ l') i = geD l i := by
  unfold geD
  exact List.getD_append l l' default i h

theorem geD_dropLast (l : List α) {i : Nat} (h : i < l.length - 1) :
    geD l.dropLast i = geD l i := by
  have h2 : i < l.length := by omega
  simp [geD, List.getD_eq_getElem?_getD, List.dropLast_eq_take, List.getElem?_take, h,
    List.getElem?_eq_getElem h2]

theorem geD_eq_getElem (l : List α) {i : Nat} (h : i < l.length) :
    geD l i = l[i] := List.getD_eq_getElem l default h

end TinyQueue

theorem messagesCompare_refl (a : MessageType) : messagesCompare a a ≤ 0 := by
  simp [messagesCompare]

theorem messagesCompare_trans {a b c : MessageType} (hab : messagesCompare a b ≤ 0)
    (hbc : messagesCompare b c ≤ 0) : messagesCompare a c ≤ 0 := by
  by_cases ha : a.message.type = "atomist:command" <;>
    by_cases hb : b.message.type = "atomist:command" <;>
    by_cases hc : c.message.type = "atomist:command" <;>
    simp [messagesCompare, ha, hb, hc] at * <;> omega

theorem messagesCompare_anti {a b : MessageType} :
    0 ≤ messagesCompare a b ↔ messagesCompare b a ≤ 0 := by
  by_cases ha : a.message.type = "atomist:command" <;>
    by_cases hb : b.message.type = "atomist:command" <;>
    simp [messagesCompare, ha, hb]
namespace TinyQueue

variable {α : Type} [Inhabited α]

theorem length_upAux (cmp : α → α → Int) :
    ∀ fuel (l : List α) (item : α) (pos : Nat),
      (upAux cmp fuel l item pos).length = l.length := by
  intro fuel
  induction fuel with
  | zero => intro l item pos; rw [upAux, List.length_set]
  | succ n ih =>
    intro l item pos
    rw [upAux]
    by_cases h0 : pos = 0
    · rw [if_pos h0, List.length_set]
    · rw [if_neg h0]
      dsimp only
      by_cases hbr : 0 ≤ cmp item (geD l ((pos - 1) / 2))
      · rw [if_pos hbr, List.length_set]
      · rw [if_neg hbr, ih, List.length_set]

theorem length_up (cmp : α → α → Int) :
    ∀ pos (l : List α) (item : α), (up cmp l item pos).length = l.length :=
  fun pos l item => length_upAux cmp pos l item pos

theorem length_downAux (cmp : α → α → Int) :
    ∀ fuel len (l : List α) (item : α) (pos : Nat),
      (downAux cmp fuel len l item pos).length = l.length := by
  intro fuel
  induction fuel with
  | zero => intro len l item pos; rw [downAux, List.length_set]
  | succ n ihn =>
    intro len l item pos
    rw [downAux]
    by_cases hnode : pos < len / 2
    · rw [if_pos hnode]
      dsimp only
      by_cases hr : 2 * pos + 1 + 1 < len ∧ cmp (geD l (2 * pos + 1 + 1)) (geD l (2 * pos + 1)) < 0
      · rw [if_pos hr]
        by_cases hbr : 0 ≤ cmp (geD l (2 * pos + 1 + 1)) item
        · rw [if_pos hbr, List.length_set]
        · rw [if_neg hbr, ihn, List.length_set]
      · rw [if_neg hr]
        by_cases hbr : 0 ≤ cmp (geD l (2 * pos + 1)) item
        · rw [if_pos hbr, List.length_set]
        · rw [if_neg hbr, ihn, List.length_set]
    · rw [if_neg hnode, List.length_set]

theorem length_down (cmp : α → α → Int) (len : Nat) (l : List α) (item : α) (pos : Nat) :
    (down cmp len l item pos).length = l.length :=
  length_downAux cmp len len l item pos

/-- Placing `item` into the hole `pos` restores the heap when the array
is a heap away from the hole, the hole's parent fits above `item`, and
`item` fits above the hole's children. -/
theorem set_hole_isHeap (cmp : α → α → Int) {l : List α} {len pos : Nat} {item : α}
    (hlen : l.length = len) (hpos : pos < len)
    (haway : ∀ i j, j < len → (j = 2 * i + 1 ∨ j = 2 * i + 2) →
      i ≠ pos → j ≠ pos → cmp (geD l i) (geD l j) ≤ 0)
    (hparent : 0 < pos → cmp (geD l ((pos - 1) / 2)) item ≤ 0)
    (hchild : ∀ j, j < len → (j = 2 * pos + 1 ∨ j = 2 * pos + 2) →
      cmp item (geD l j) ≤ 0) :
    IsHeap cmp (l.set pos item) := by
  intro i j hj hedge
  rw [List.length_set, hlen] at hj
  have hposl : pos < l.length := by omega
  by_cases hjp : j = pos
  · have hip : i = (pos - 1) / 2 := by omega
    have hne : pos ≠ i := by omega
    rw [hjp, geD_set_eq l pos item hposl, geD_set_ne l item hne, hip]
    exact hparent (by omega)
  · by_cases hip : i = pos
    · have hne : pos ≠ j := Ne.symm hjp
      rw [hip, geD_set_eq l pos item hposl, geD_set_ne l item hne]
      have hedge2 : j = 2 * pos + 1 ∨ j = 2 * pos + 2 := by omega
      exact hchild j hj hedge2
    · rw [geD_set_ne l item (Ne.symm hip), geD_set_ne l item (Ne.symm hjp)]
      exact haway i j hj hedge hip hjp

theorem upAux_isHeap (cmp : α → α → Int)
    (htrans : ∀ a b c : α, cmp a b ≤ 0 → cmp b c ≤ 0 → cmp a c ≤ 0)
    (hanti : ∀ a b : α, 0 ≤ cmp a b ↔ cmp b a ≤ 0) :
    ∀ fuel pos (l : List α) (item : α), pos ≤ fuel → pos < l.length → UpInv cmp l pos item →
      IsHeap cmp (upAux cmp fuel l item pos) := by
  intro fuel
  induction fuel with
  | zero =>
    intro pos l item hf hpos hinv
    have h0 : pos = 0 := by omega
    rw [upAux]
    rw [h0] at hpos hinv ⊢
    exact set_hole_isHeap cmp rfl hpos hinv.heapAway
      (fun h => absurd h (by omega)) hinv.itemChildren
  | succ n ih =>
  intro pos l item hf hpos hinv
  rw [upAux]
  by_cases h0 : pos = 0
  · rw [if_pos h0]
    rw [h0] at hpos hinv
    exact set_hole_isHeap cmp rfl hpos hinv.heapAway
      (fun h => absurd h (by omega)) hinv.itemChildren
  · rw [if_neg h0]
    have hppos : 0 < pos := Nat.pos_of_ne_zero h0
    dsimp only
    by_cases hbr : 0 ≤ cmp item (geD l ((pos - 1) / 2))
    · rw [if_pos hbr]
      exact set_hole_isHeap cmp rfl hpos hinv.heapAway
        (fun _ => (hanti item _).mp hbr) hinv.itemChildren
    · rw [if_neg hbr]
      have hlt : cmp item (geD l ((pos - 1) / 2)) < 0 := by omega
      apply ih ((pos - 1) / 2) _ _ (by omega)
      · rw [List.length_set]; omega
      · constructor
        · -- heap away from the new hole at the parent
          intro i j hj hedge hiP hjP
          rw [List.length_set] at hj
          by_cases hip : i = pos
          · have hedge2 : j = 2 * pos + 1 ∨ j = 2 * pos + 2 := by omega
            have hjne : pos ≠ j := by omega
            rw [hip, geD_set_eq l pos _ hpos, geD_set_ne l _ hjne]
            exact hinv.parentChildren j hj hedge2 hppos
          · by_cases hjp : j = pos
            · exact absurd (by omega : i = (pos - 1) / 2) hiP
            · rw [geD_set_ne l _ (Ne.symm hip), geD_set_ne l _ (Ne.symm hjp)]
              exact hinv.heapAway i j hj hedge hip hjp
        · -- item fits above the children of the parent hole
          intro j hj hedge
          rw [List.length_set] at hj
          by_cases hjp : j = pos
          · rw [hjp, geD_set_eq l pos _ hpos]
            exact Int.le_of_lt hlt
          · rw [geD_set_ne l _ (Ne.symm hjp)]
            have hPne : (pos - 1) / 2 ≠ pos := by omega
            exact htrans _ _ _ (Int.le_of_lt hlt)
              (hinv.heapAway ((pos - 1) / 2) j hj hedge hPne hjp)
        · -- the grandparent fits above the children of the parent hole
          intro j hj hedge hPpos
          rw [List.length_set] at hj
          have hGne : ((pos - 1) / 2 - 1) / 2 ≠ pos := by omega
          rw [geD_set_ne l _ (Ne.symm hGne)]
          have hedgeGP : (pos - 1) / 2 = 2 * (((pos - 1) / 2 - 1) / 2) + 1 ∨
              (pos - 1) / 2 = 2 * (((pos - 1) / 2 - 1) / 2) + 2 := by omega
          have hGP : cmp (geD l (((pos - 1) / 2 - 1) / 2)) (geD l ((pos - 1) / 2)) ≤ 0 :=
            hinv.heapAway _ _ (by omega) hedgeGP (by omega) (by omega)
          by_cases hjp : j = pos
          · rw [hjp, geD_set_eq l pos _ hpos]
            exact hGP
          · rw [geD_set_ne l _ (Ne.symm hjp)]
            have hPne : (pos - 1) / 2 ≠ pos := by omega
            exact htrans _ _ _ hGP (hinv.heapAway ((pos - 1) / 2) j hj hedge hPne hjp)

end TinyQueue
namespace TinyQueue

variable {α : Type} [Inhabited α]

theorem up_isHeap (cmp : α → α → Int)
    (htrans : ∀ a b c : α, cmp a b ≤ 0 → cmp b c ≤ 0 → cmp a c ≤ 0)
    (hanti : ∀ a b : α, 0 ≤ cmp a b ↔ cmp b a ≤ 0) :
    ∀ pos (l : List α) (item : α), pos < l.length → UpInv cmp l pos item →
      IsHeap cmp (up cmp l item pos) :=
  fun pos l item hpos hinv =>
    upAux_isHeap cmp htrans hanti pos pos l item (Nat.le_refl pos) hpos hinv

theorem push_isHeap (cmp : α → α → Int)
    (htrans : ∀ a b c : α, cmp a b ≤ 0 → cmp b c ≤ 0 → cmp a c ≤ 0)
    (hanti : ∀ a b : α, 0 ≤ cmp a b ↔ cmp b a ≤ 0)
    {l : List α} (item : α) (hq : IsHeap cmp l) : IsHeap cmp (push cmp l item) := by
  unfold push
  apply up_isHeap cmp htrans hanti l.length (l ++ [item]) item (by simp)
  constructor
  · intro i j hj hedge hip hjp
    rw [List.length_append, List.length_singleton] at hj
    have hjl : j < l.length := by omega
    have hil : i < l.length := by omega
    rw [geD_append_lt l [item] hil, geD_append_lt l [item] hjl]
    exact hq i j hjl hedge
  · intro j hj hedge
    rw [List.length_append, List.length_singleton] at hj
    omega
  · intro j hj hedge
    rw [List.length_append, List.length_singleton] at hj
    omega

theorem downAux_isHeap (cmp : α → α → Int)
    (hrefl : ∀ a : α, cmp a a ≤ 0)
    (htrans : ∀ a b c : α, cmp a b ≤ 0 → cmp b c ≤ 0 → cmp a c ≤ 0)
    (hanti : ∀ a b : α, 0 ≤ cmp a b ↔ cmp b a ≤ 0) {len : Nat} :
    ∀ fuel pos (l : List α) (item : α), len - pos ≤ fuel → pos < len →
      DownInv cmp len l pos item → IsHeap cmp (downAux cmp fuel len l item pos) := by
  intro fuel
  induction fuel with
  | zero => intro pos l item hf hpos _; omega
  | succ n ihn =>
  intro pos l item hf hpos hinv
  have hlen := hinv.len_eq
  rw [downAux]
  by_cases hnode : pos < len / 2
  · rw [if_pos hnode]
    have hlft : 2 * pos + 1 < len := by omega
    dsimp only
    by_cases hr : 2 * pos + 1 + 1 < len ∧ cmp (geD l (2 * pos + 1 + 1)) (geD l (2 * pos + 1)) < 0
    · -- the right child exists and sorts before the left child
      rw [if_pos hr]
      have hbestL : cmp (geD l (2 * pos + 1 + 1)) (geD l (2 * pos + 1)) ≤ 0 :=
        Int.le_of_lt hr.2
      by_cases hbr : 0 ≤ cmp (geD l (2 * pos + 1 + 1)) item
      · rw [if_pos hbr]
        apply set_hole_isHeap cmp hlen hpos hinv.heapAway hinv.parentItem
        intro j hj hedge
        have hitem : cmp item (geD l (2 * pos + 1 + 1)) ≤ 0 := (hanti _ _).mp hbr
        rcases hedge with hL | hR
        · rw [hL]; exact htrans _ _ _ hitem hbestL
        · rw [hR]
          exact htrans _ _ _ hitem (by rw [(by omega : 2 * pos + 2 = 2 * pos + 1 + 1)]; exact hrefl _)
      · rw [if_neg hbr]
        have hlt : cmp (geD l (2 * pos + 1 + 1)) item < 0 := by omega
        apply ihn (2 * pos + 1 + 1) _ _ (by omega) (by omega)
        constructor
        · rw [List.length_set]; exact hlen
        · intro i j hj hedge hic hjc
          by_cases hip : i = pos
          · have hjsib : j = 2 * pos + 1 := by omega
            have hjne : pos ≠ j := by omega
            rw [hip, geD_set_eq l pos _ (by omega), geD_set_ne l _ hjne, hjsib]
            exact hbestL
          · by_cases hjp : j = pos
            · have hiP : i = (pos - 1) / 2 := by omega
              have hppos : 0 < pos := by omega
              rw [geD_set_ne l _ (Ne.symm hip), hjp, geD_set_eq l pos _ (by omega), hiP]
              exact hinv.parentChildren hppos _ hr.1 (by omega)
            · rw [geD_set_ne l _ (Ne.symm hip), geD_set_ne l _ (Ne.symm hjp)]
              exact hinv.heapAway i j hj hedge hip hjp
        · intro _
          rw [(by omega : (2 * pos + 1 + 1 - 1) / 2 = pos), geD_set_eq l pos _ (by omega)]
          exact Int.le_of_lt hlt
        · intro _ j hj hedge
          rw [(by omega : (2 * pos + 1 + 1 - 1) / 2 = pos), geD_set_eq l pos _ (by omega),
            geD_set_ne l _ (by omega : pos ≠ j)]
          exact hinv.heapAway (2 * pos + 1 + 1) j hj hedge (by omega) (by omega)
    · -- the left child is the best child
      rw [if_neg hr]
      have hbestR : 2 * pos + 1 + 1 < len → cmp (geD l (2 * pos + 1)) (geD l (2 * pos + 1 + 1)) ≤ 0 := by
        intro h2
        have : ¬ cmp (geD l (2 * pos + 1 + 1)) (geD l (2 * pos + 1)) < 0 := fun hc => hr ⟨h2, hc⟩
        exact (hanti _ _).mp (by omega)
      by_cases hbr : 0 ≤ cmp (geD l (2 * pos + 1)) item
      · rw [if_pos hbr]
        apply set_hole_isHeap cmp hlen hpos hinv.heapAway hinv.parentItem
        intro j hj hedge
        have hitem : cmp item (geD l (2 * pos + 1)) ≤ 0 := (hanti _ _).mp hbr
        rcases hedge with hL | hR
        · rw [hL]; exact htrans _ _ _ hitem (hrefl _)
        · rw [hR]
          exact htrans _ _ _ hitem
            (by rw [(by omega : 2 * pos + 2 = 2 * pos + 1 + 1)]; exact hbestR (by omega))
      · rw [if_neg hbr]
        have hlt : cmp (geD l (2 * pos + 1)) item < 0 := by omega
        apply ihn (2 * pos + 1) _ _ (by omega) (by omega)
        constructor
        · rw [List.length_set]; exact hlen
        · intro i j hj hedge hic hjc
          by_cases hip : i = pos
          · have hjsib : j = 2 * pos + 1 + 1 := by omega
            have hjne : pos ≠ j := by omega
            rw [hip, geD_set_eq l pos _ (by omega), geD_set_ne l _ hjne, hjsib]
            exact hbestR (by omega)
          · by_cases hjp : j = pos
            · have hiP : i = (pos - 1) / 2 := by omega
              have hppos : 0 < pos := by omega
              rw [geD_set_ne l _ (Ne.symm hip), hjp, geD_set_eq l pos _ (by omega), hiP]
              exact hinv.parentChildren hppos _ hlft (by omega)
            · rw [geD_set_ne l _ (Ne.symm hip), geD_set_ne l _ (Ne.symm hjp)]
              exact hinv.heapAway i j hj hedge hip hjp
        · intro _
          rw [(by omega : (2 * pos + 1 - 1) / 2 = pos), geD_set_eq l pos _ (by omega)]
          exact Int.le_of_lt hlt
        · intro _ j hj hedge
          rw [(by omega : (2 * pos + 1 - 1) / 2 = pos), geD_set_eq l pos _ (by omega),
            geD_set_ne l _ (by omega : pos ≠ j)]
          exact hinv.heapAway (2 * pos + 1) j hj hedge (by omega) (by omega)
  · rw [if_neg hnode]
    apply set_hole_isHeap cmp hlen hpos hinv.heapAway hinv.parentItem
    intro j hj hedge
    omega

theorem down_isHeap (cmp : α → α → Int)
    (hrefl : ∀ a : α, cmp a a ≤ 0)
    (htrans : ∀ a b c : α, cmp a b ≤ 0 → cmp b c ≤ 0 → cmp a c ≤ 0)
    (hanti : ∀ a b : α, 0 ≤ cmp a b ↔ cmp b a ≤ 0) {len : Nat}
    (pos : Nat) (l : List α) (item : α) (hpos : pos < len)
    (hinv : DownInv cmp len l pos item) : IsHeap cmp (down cmp len l item pos) :=
  downAux_isHeap cmp hrefl htrans hanti len pos l item (Nat.sub_le len pos) hpos hinv

theorem isHeap_root_min (cmp : α → α → Int)
    (hrefl : ∀ a : α, cmp a a ≤ 0)
    (htrans : ∀ a b c : α, cmp a b ≤ 0 → cmp b c ≤ 0 → cmp a c ≤ 0)
    {l : List α} (hh : IsHeap cmp l) :
    ∀ i, i < l.length → cmp (geD l 0) (geD l i) ≤ 0 := by
  intro i
  induction i using Nat.strong_induction_on with
  | _ i ih =>
  intro hi
  by_cases h0 : i = 0
  · rw [h0]; exact hrefl _
  · have hp : (i - 1) / 2 < i := by omega
    have hedge : i = 2 * ((i - 1) / 2) + 1 ∨ i = 2 * ((i - 1) / 2) + 2 := by omega
    exact htrans _ _ _ (ih _ hp (by omega)) (hh _ i hi hedge)

end TinyQueue
namespace TinyQueue

variable {α : Type} [Inhabited α]

theorem length_push (cmp : α → α → Int) (q : List α) (item : α) :
    (push cmp q item).length = q.length + 1 := by
  unfold push
  rw [length_up cmp]
  simp

theorem pop_isSome (cmp : α → α → Int) {q : List α} (h : q ≠ []) :
    (pop cmp q).isSome := by
  cases q with
  | nil => exact absurd rfl h
  | cons a as =>
    rw [pop]
    by_cases h0 : (a :: as).dropLast.length = 0
    · rw [if_pos h0]; rfl
    · rw [if_neg h0]; rfl

theorem pop_fst (cmp : α → α → Int) {q : List α} {t : α} {q' : List α}
    (h : pop cmp q = some (t, q')) : t = geD q 0 := by
  cases q with
  | nil => simp [pop] at h
  | cons a as =>
    rw [pop] at h
    by_cases h0 : (a :: as).dropLast.length = 0
    · rw [if_pos h0] at h
      cases h
      simp [geD]
    · rw [if_neg h0] at h
      cases h
      simp [geD]

theorem pop_length (cmp : α → α → Int) {q : List α} {t : α} {q' : List α}
    (h : pop cmp q = some (t, q')) : q'.length = q.length - 1 := by
  cases q with
  | nil => simp [pop] at h
  | cons a as =>
    rw [pop] at h
    by_cases h0 : (a :: as).dropLast.length = 0
    · rw [if_pos h0] at h
      cases h
      simp
    · rw [if_neg h0] at h
      simp only [Option.some.injEq, Prod.mk.injEq] at h
      obtain ⟨h1, h2⟩ := h
      subst h2
      rw [length_down, List.length_set]
      simp

theorem pop_isHeap (cmp : α → α → Int)
    (hrefl : ∀ a : α, cmp a a ≤ 0)
    (htrans : ∀ a b c : α, cmp a b ≤ 0 → cmp b c ≤ 0 → cmp a c ≤ 0)
    (hanti : ∀ a b : α, 0 ≤ cmp a b ↔ cmp b a ≤ 0)
    {q : List α} (hq : IsHeap cmp q) {t : α} {q' : List α}
    (h : pop cmp q = some (t, q')) : IsHeap cmp q' := by
  cases q with
  | nil => simp [pop] at h
  | cons a as =>
    rw [pop] at h
    by_cases h0 : (a :: as).dropLast.length = 0
    · rw [if_pos h0] at h
      cases h
      intro i j hj _
      omega
    · rw [if_neg h0] at h
      simp only [Option.some.injEq, Prod.mk.injEq] at h
      obtain ⟨h1, h2⟩ := h
      subst h2
      apply down_isHeap cmp hrefl htrans hanti 0 _ _ (by omega)
      constructor
      · rw [List.length_set]
      · intro i j hj hedge hi0 hj0
        have hlen : (a :: as).dropLast.length = (a :: as).length - 1 := by simp
        rw [geD_set_ne _ _ (Ne.symm hi0), geD_set_ne _ _ (Ne.symm hj0),
          geD_dropLast _ (by omega), geD_dropLast _ (by omega)]
        exact hq i j (by omega) hedge
      · intro hc; omega
      · intro hc; omega

theorem pop_min (cmp : α → α → Int)
    (hrefl : ∀ a : α, cmp a a ≤ 0)
    (htrans : ∀ a b c : α, cmp a b ≤ 0 → cmp b c ≤ 0 → cmp a c ≤ 0)
    {q : List α} (hq : IsHeap cmp q) {t : α} {q' : List α}
    (h : pop cmp q = some (t, q')) : ∀ m ∈ q, cmp t m ≤ 0 := by
  intro m hm
  obtain ⟨i, hi, hgi⟩ := List.mem_iff_getElem.mp hm
  have hroot := isHeap_root_min cmp hrefl htrans hq i hi
  rw [pop_fst cmp h, ← hgi, ← geD_eq_getElem q hi]
  exact hroot

end TinyQueue
/-! ### Association-map lemmas -/

namespace AMap

variable {κ ν : Type} [DecidableEq κ]

theorem has_iff_mem_keys (m : List (κ × ν)) (k : κ) : has m k = true ↔ k ∈ keys m := by
  simp [has, keys, List.find?_isSome, List.mem_map]

theorem get?_eq_none_iff (m : List (κ × ν)) (k : κ) :
    get? m k = none ↔ k ∉ keys m := by
  rw [get?, Option.map_eq_none', List.find?_eq_none]
  constructor
  · intro h hkeys
    obtain ⟨x, hx, hk⟩ := List.mem_map.mp hkeys
    exact h x hx (by simpa using hk)
  · intro h x hx hk
    exact h (List.mem_map.mpr ⟨x, hx, by simpa using hk⟩)

theorem get?_of_mem_of_nodup {m : List (κ × ν)} {k : κ} {v : ν}
    (hm : (k, v) ∈ m) (hnd : (keys m).Nodup) : get? m k = some v := by
  revert hm hnd
  induction m with
  | nil => intro hm _; cases hm
  | cons p rest ih =>
    intro hm hnd
    rcases List.mem_cons.mp hm with hp | hrest
    · rw [get?, List.find?_cons_of_pos _ (by simp [← hp])]
      rw [← hp]
      rfl
    · by_cases hk : p.1 = k
      · exfalso
        have hkr : k ∈ keys rest := List.mem_map.mpr ⟨(k, v), hrest, rfl⟩
        simp only [keys, List.map_cons, List.nodup_cons] at hnd
        exact hnd.1 (hk ▸ hkr)
      · simp only [keys, List.map_cons, List.nodup_cons] at hnd
        rw [get?, List.find?_cons_of_neg _ (by simpa using hk)]
        exact ih hrest hnd.2

theorem find?_map_replace_pos (m : List (κ × ν)) (k : κ) (v : ν) (hhas : has m k = true) :
    ((m.map (fun p => if p.1 = k then (k, v) else p)).find? (fun p => p.1 = k)) =
      some (k, v) := by
  revert hhas
  induction m with
  | nil => intro hhas; simp [has] at hhas
  | cons p rest ih =>
    intro hhas
    by_cases hp : p.1 = k
    · rw [List.map_cons, if_pos hp]
      exact List.find?_cons_of_pos _ (by simp)
    · rw [List.map_cons, if_neg hp, List.find?_cons_of_neg _ (by simpa using hp)]
      apply ih
      simp only [has] at hhas ⊢
      rw [List.find?_cons_of_neg _ (by simpa using hp)] at hhas
      exact hhas

theorem find?_map_replace_ne (m : List (κ × ν)) {k k' : κ} (v : ν) (hne : k' ≠ k) :
    ((m.map (fun p => if p.1 = k then (k, v) else p)).find? (fun p => p.1 = k')) =
      m.find? (fun p => p.1 = k') := by
  induction m with
  | nil => rfl
  | cons p rest ih =>
    by_cases hp : p.1 = k
    · have hp' : ¬ p.1 = k' := fun hh => hne (by rw [← hh]; exact hp)
      rw [List.map_cons, if_pos hp,
        List.find?_cons_of_neg _ (by simpa using fun hh => hne (by rw [hh])),
        List.find?_cons_of_neg _ (by simpa using hp')]
      exact ih
    · by_cases hp' : p.1 = k'
      · rw [List.map_cons, if_neg hp, List.find?_cons_of_pos _ (by simpa using hp'),
          List.find?_cons_of_pos _ (by simpa using hp')]
      · rw [List.map_cons, if_neg hp, List.find?_cons_of_neg _ (by simpa using hp'),
          List.find?_cons_of_neg _ (by simpa using hp')]
        exact ih

theorem get?_set_self (m : List (κ × ν)) (k : κ) (v : ν) :
    get? (set m k v) k = some v := by
  unfold set
  by_cases h : has m k
  · rw [if_pos h, get?, find?_map_replace_pos m k v h]
    rfl
  · rw [if_neg h, get?, List.find?_append]
    have hnone : m.find? (fun p => p.1 = k) = none := by
      cases hf : m.find? (fun p => p.1 = k) with
      | none => rfl
      | some x => exact absurd (by simp [has, hf]) h
    rw [hnone, Option.none_or, List.find?_cons_of_pos _ (by simp)]
    rfl

theorem get?_set_ne (m : List (κ × ν)) {k k' : κ} (v : ν) (hne : k' ≠ k) :
    get? (set m k v) k' = get? m k' := by
  unfold set
  by_cases h : has m k
  · rw [if_pos h, get?, find?_map_replace_ne m v hne]
    rfl
  · rw [if_neg h, get?, List.find?_append,
      List.find?_cons_of_neg _ (by simpa using fun hh => hne (by rw [hh])),
      List.find?_nil, Option.or_none]
    rfl

theorem get?_del_self (m : List (κ × ν)) (k : κ) : get? (del m k) k = none := by
  rw [get?]
  have hnone : (del m k).find? (fun p => p.1 = k) = none := by
    rw [List.find?_eq_none]
    intro x hx
    have hmem := (List.mem_filter.mp hx).2
    simpa using hmem
  rw [hnone]
  rfl

theorem get?_del_ne (m : List (κ × ν)) {k k' : κ} (hne : k' ≠ k) :
    get? (del m k) k' = get? m k' := by
  induction m with
  | nil => rfl
  | cons p rest ih =>
    rw [del, List.filter_cons]
    by_cases hp : p.1 = k
    · have hp' : ¬ p.1 = k' := fun hh => hne (by rw [← hh]; exact hp)
      rw [if_neg (by simpa using hp)]
      rw [del] at ih
      rw [ih, get?, get?, List.find?_cons_of_neg _ (by simpa using hp')]
    · by_cases hp' : p.1 = k'
      · rw [if_pos (by simpa using hp)]
        rw [get?, get?, List.find?_cons_of_pos _ (by simpa using hp'),
          List.find?_cons_of_pos _ (by simpa using hp')]
      · rw [if_pos (by simpa using hp)]
        rw [del] at ih
        rw [get?, get?, List.find?_cons_of_neg _ (by simpa using hp'),
          List.find?_cons_of_neg _ (by simpa using hp')]
        rw [get?, get?] at ih
        exact ih

theorem keys_map_replace (m : List (κ × ν)) (k : κ) (v : ν) :
    keys (m.map (fun p => if p.1 = k then (k, v) else p)) = keys m := by
  unfold keys
  induction m with
  | nil => rfl
  | cons p rest ih =>
    simp only [List.map_cons]
    by_cases hp : p.1 = k
    · rw [if_pos hp, ih, hp]
    · rw [if_neg hp, ih]

theorem keys_del_sublist (m : List (κ × ν)) (k : κ) :
    List.Sublist (keys (del m k)) (keys m) :=
  List.Sublist.map _ (List.filter_sublist m)

theorem nodup_keys_set {m : List (κ × ν)} (k : κ) (v : ν)
    (hnd : (keys m).Nodup) : (keys (set m k v)).Nodup := by
  unfold set
  by_cases h : has m k
  · rw [if_pos h, keys_map_replace]
    exact hnd
  · rw [if_neg h]
    have hk : k ∉ keys m := fun hin => h ((has_iff_mem_keys m k).mpr hin)
    simp only [keys, List.map_append, List.map_cons, List.map_nil]
    rw [List.nodup_append]
    refine ⟨hnd, List.nodup_singleton k, ?_⟩
    intro a ha hb
    simp only [List.mem_singleton] at hb
    exact hk (hb ▸ ha)

theorem nodup_keys_del {m : List (κ × ν)} (k : κ)
    (hnd : (keys m).Nodup) : (keys (del m k)).Nodup :=
  hnd.sublist (keys_del_sublist m k)

theorem map_replace_eq_self {m : List (κ × ν)} {k : κ} (v : ν)
    (habs : ∀ x ∈ m, ¬ x.1 = k) :
    m.map (fun p => if p.1 = k then (k, v) else p) = m := by
  induction m with
  | nil => rfl
  | cons p rest ih =>
    have hp : ¬ p.1 = k := habs p (by simp)
    rw [List.map_cons, if_neg hp, ih (fun x hx => habs x (by simp [hx]))]

theorem del_eq_self {m : List (κ × ν)} {k : κ} (habs : ∀ x ∈ m, ¬ x.1 = k) :
    del m k = m := by
  unfold del
  rw [List.filter_eq_self]
  intro x hx
  simpa using habs x hx

theorem set_perm {m : List (κ × ν)} (k : κ) (v : ν) (hnd : (keys m).Nodup) :
    (set m k v).Perm (del m k ++ [(k, v)]) := by
  unfold set
  by_cases h : has m k
  · rw [if_pos h]
    revert hnd h
    induction m with
    | nil => intro _ h; simp [has] at h
    | cons p rest ih =>
      intro hnd h
      by_cases hp : p.1 = k
      · have hrest : ∀ x ∈ rest, ¬ x.1 = k := by
          intro x hx hxk
          simp only [keys, List.map_cons, List.nodup_cons] at hnd
          exact hnd.1 (hp ▸ hxk ▸ List.mem_map.mpr ⟨x, hx, rfl⟩)
        rw [List.map_cons, if_pos hp, map_replace_eq_self v hrest]
        have hdel : del (p :: rest) k = rest := by
          rw [del, List.filter_cons, if_neg (by simpa using hp)]
          exact del_eq_self hrest
        rw [hdel]
        exact (List.perm_append_singleton _ _).symm
      · have hrest : has rest k = true := by
          simp only [has] at h ⊢
          rw [List.find?_cons_of_neg _ (by simpa using hp)] at h
          exact h
        simp only [keys, List.map_cons, List.nodup_cons] at hnd
        have ihr := ih hnd.2 hrest
        rw [List.map_cons, if_neg hp]
        have hdel : del (p :: rest) k = p :: del rest k := by
          rw [del, List.filter_cons, if_pos (by simpa using hp)]
          rfl
        rw [hdel, List.cons_append]
        exact List.Perm.cons p ihr
  · rw [if_neg h]
    have hk : ∀ x ∈ m, ¬ x.1 = k := by
      intro x hx hxk
      exact h ((has_iff_mem_keys m k).mpr (List.mem_map.mpr ⟨x, hx, hxk⟩))
    rw [del_eq_self hk]

end AMap
/-! ### Worker-load counting and `assignWorker` -/

theorem tcount_perm {m m' : List (String × Entry)} (h : m.Perm m') (wid : Nat) :
    tcount m wid = tcount m' wid :=
  (h.filter _).length_eq

theorem tcount_append (m m' : List (String × Entry)) (wid : Nat) :
    tcount (m ++ m') wid = tcount m wid + tcount m' wid := by
  simp [tcount, List.filter_append]

theorem tcount_sublist {m m' : List (String × Entry)} (h : List.Sublist m m') (wid : Nat) :
    tcount m wid ≤ tcount m' wid :=
  List.Sublist.length_le (h.filter _)

theorem tcount_del_le (m : List (String × Entry)) (k : String) (wid : Nat) :
    tcount (AMap.del m k) wid ≤ tcount m wid :=
  tcount_sublist (List.filter_sublist m) wid

theorem tcount_purge_le (tbl : List (String × Entry)) (live : List ClusterWorker) (wid : Nat) :
    tcount (purgeDead tbl live) wid ≤ tcount tbl wid :=
  tcount_sublist (List.filter_sublist tbl) wid

theorem tcount_singleton (k : String) (e : Entry) (wid : Nat) :
    tcount [(k, e)] wid = if e.worker = wid then 1 else 0 := by
  by_cases h : e.worker = wid <;> simp [tcount, List.filter, h]

theorem tcount_set {m : List (String × Entry)} (k : String) (e : Entry) (wid : Nat)
    (hnd : (AMap.keys m).Nodup) :
    tcount (AMap.set m k e) wid =
      tcount (AMap.del m k) wid + (if e.worker = wid then 1 else 0) := by
  rw [tcount_perm (AMap.set_perm k e hnd) wid, tcount_append, tcount_singleton]

theorem tcount_set_le {m : List (String × Entry)} (k : String) (e : Entry) (wid : Nat)
    (hnd : (AMap.keys m).Nodup) :
    tcount (AMap.set m k e) wid ≤
      tcount m wid + (if e.worker = wid then 1 else 0) := by
  rw [tcount_set k e wid hnd]
  have := tcount_del_le m k wid
  omega

theorem assignWorker_snd (st : MasterState) (mc pick : Nat) :
    (assignWorker st mc pick).2 =
      { st with events := purgeDead st.events (candidateWorkers st),
                commands := purgeDead st.commands (candidateWorkers st) } := by
  unfold assignWorker
  dsimp only
  split <;> rfl

theorem assignWorker_some {st : MasterState} {mc pick : Nat} {w : ClusterWorker}
    (h : (assignWorker st mc pick).1 = some w) :
    w ∈ candidateWorkers st ∧
      entryCount (purgeDead st.commands (candidateWorkers st))
        (purgeDead st.events (candidateWorkers st)) w.id < mc := by
  unfold assignWorker at h
  dsimp only at h
  set eligible := (candidateWorkers st).filter
    (fun x => entryCount (purgeDead st.commands (candidateWorkers st))
      (purgeDead st.events (candidateWorkers st)) x.id < mc) with heli
  by_cases he : eligible.isEmpty
  · rw [if_pos he] at h
    cases h
  · rw [if_neg he] at h
    have hne : eligible ≠ [] := by
      intro hcon
      rw [hcon] at he
      exact he rfl
    have hlen : 0 < eligible.length := List.length_pos.mpr hne
    have hmod : pick % eligible.length < eligible.length := Nat.mod_lt _ hlen
    have hw : w = eligible.getD (pick % eligible.length) default := by
      cases h
      rfl
    have hmem : w ∈ eligible := by
      rw [hw, List.getD_eq_getElem eligible default hmod]
      exact List.getElem_mem hmod
    have := List.mem_filter.mp hmem
    exact ⟨this.1, by simpa using this.2⟩

theorem assignWorker_none_iff (st : MasterState) (mc pick : Nat) :
    (assignWorker st mc pick).1 = none ↔
      ∀ w ∈ candidateWorkers st,
        mc ≤ entryCount (purgeDead st.commands (candidateWorkers st))
          (purgeDead st.events (candidateWorkers st)) w.id := by
  unfold assignWorker
  dsimp only
  set eligible := (candidateWorkers st).filter
    (fun x => entryCount (purgeDead st.commands (candidateWorkers st))
      (purgeDead st.events (candidateWorkers st)) x.id < mc) with heli
  by_cases he : eligible.isEmpty
  · rw [if_pos he]
    simp only [true_iff]
    have : eligible = [] := List.isEmpty_iff.mp he
    rw [heli] at this
    intro w hw
    have := List.filter_eq_nil_iff.mp this w hw
    simpa using this
  · rw [if_neg he]
    constructor
    · intro hcon
      exact (Option.some_ne_none _ hcon).elim
    · intro hall
      exfalso
      apply he
      have hnil : eligible = [] := by
        rw [heli, List.filter_eq_nil_iff]
        intro w hw
        simp only [decide_eq_true_eq]
        have := hall w hw
        omega
      rw [hnil]
      rfl
theorem assignWorker_pick_exists {st : MasterState} {mc : Nat} {w : ClusterWorker}
    (hw : w ∈ candidateWorkers st)
    (hcnt : entryCount (purgeDead st.commands (candidateWorkers st))
      (purgeDead st.events (candidateWorkers st)) w.id < mc) :
    ∃ pick, (assignWorker st mc pick).1 = some w := by
  unfold assignWorker
  dsimp only
  set eligible := (candidateWorkers st).filter
    (fun x => entryCount (purgeDead st.commands (candidateWorkers st))
      (purgeDead st.events (candidateWorkers st)) x.id < mc) with heli
  have hmem : w ∈ eligible := by
    rw [heli]
    exact List.mem_filter.mpr ⟨hw, by simpa using hcnt⟩
  obtain ⟨i, hi, hgi⟩ := List.mem_iff_getElem.mp hmem
  have hne : ¬ eligible.isEmpty = true := by
    intro hcon
    rw [List.isEmpty_iff.mp hcon] at hmem
    cases hmem
  refine ⟨i, ?_⟩
  rw [if_neg hne]
  rw [Nat.mod_eq_of_lt hi, List.getD_eq_getElem eligible default hi, hgi]

/-! ### The `startMessage` step equations -/

theorem startMessage_empty (cfg : Config) (st : MasterState) (pick : Nat)
    (h : st.messages = []) : startMessage cfg st pick = (st, none) := by
  unfold startMessage
  rw [if_neg (by simp [h])]

theorem startMessage_noWorker (cfg : Config) (st : MasterState) (pick : Nat)
    {st2 : MasterState} (hne : st.messages ≠ [])
    (hA : assignWorker st cfg.maxConcurrentPerWorker pick = (none, st2)) :
    startMessage cfg st pick = (st2, none) := by
  unfold startMessage
  rw [if_pos (by simpa using List.length_pos.mpr hne), hA]

theorem startMessage_dispatch (cfg : Config) (st : MasterState) (pick : Nat)
    {w : ClusterWorker} {st2 : MasterState} {m : MessageType} {rest : List MessageType}
    (hne : st.messages ≠ [])
    (hA : assignWorker st cfg.maxConcurrentPerWorker pick = (some w, st2))
    (hpop : TinyQueue.pop messagesCompare st2.messages = some (m, rest)) :
    startMessage cfg st pick =
      if m.message.type = "atomist:command" then
        ({ st2 with messages := rest,
                    commands := AMap.set st2.commands m.message.invocationId ⟨m.dispatched, w.id⟩ },
         some (m, w.id))
      else if m.message.type = "atomist:event" then
        ({ st2 with messages := rest,
                    events := AMap.set st2.events m.message.invocationId ⟨m.dispatched, w.id⟩ },
         some (m, w.id))
      else ({ st2 with messages := rest }, some (m, w.id)) := by
  unfold startMessage
  rw [if_pos (by simpa using List.length_pos.mpr hne), hA]
  dsimp only
  rw [hpop]

/-! ### Preservation of the state invariant -/

theorem masterInv_purge {cfg : Config} {st : MasterState} (h : MasterInv cfg st) :
    MasterInv cfg { st with events := purgeDead st.events (candidateWorkers st),
                            commands := purgeDead st.commands (candidateWorkers st) } := by
  obtain ⟨hheap, hload, hndc, hnde⟩ := h
  refine ⟨hheap, ?_, ?_, ?_⟩
  · intro wid
    have h1 := tcount_purge_le st.events (candidateWorkers st) wid
    have h2 := tcount_purge_le st.commands (candidateWorkers st) wid
    have h3 := hload wid
    dsimp only
    unfold entryCount at h3 ⊢
    omega
  · exact hndc.sublist (List.Sublist.map _ (List.filter_sublist _))
  · exact hnde.sublist (List.Sublist.map _ (List.filter_sublist _))

theorem masterInv_startMessage (cfg : Config) (st : MasterState) (pick : Nat)
    (h : MasterInv cfg st) : MasterInv cfg (startMessage cfg st pick).1 := by
  by_cases hq : st.messages = []
  · rw [startMessage_empty cfg st pick hq]
    exact h
  · rcases hA : assignWorker st cfg.maxConcurrentPerWorker pick with ⟨res, st2⟩
    have hst2 : st2 = { st with events := purgeDead st.events (candidateWorkers st),
                                commands := purgeDead st.commands (candidateWorkers st) } := by
      have hsnd := assignWorker_snd st cfg.maxConcurrentPerWorker pick
      rw [hA] at hsnd
      exact hsnd
    have h2 : MasterInv cfg st2 := by
      rw [hst2]
      exact masterInv_purge h
    cases res with
    | none =>
      rw [startMessage_noWorker cfg st pick hq hA]
      exact h2
    | some w =>
      have hwfacts : w ∈ candidateWorkers st ∧
          entryCount (purgeDead st.commands (candidateWorkers st))
            (purgeDead st.events (candidateWorkers st)) w.id < cfg.maxConcurrentPerWorker :=
        assignWorker_some (by rw [hA])
      have hne2 : st2.messages ≠ [] := by
        rw [hst2]
        exact hq
      obtain ⟨⟨m, rest⟩, hpop⟩ :=
        Option.isSome_iff_exists.mp (TinyQueue.pop_isSome messagesCompare hne2)
      rw [startMessage_dispatch cfg st pick hq hA hpop]
      obtain ⟨hheap2, hload2, hndc2, hnde2⟩ := h2
      have hheapR : TinyQueue.IsHeap messagesCompare rest :=
        TinyQueue.pop_isHeap messagesCompare messagesCompare_refl
          (fun a b c => messagesCompare_trans) (fun a b => messagesCompare_anti)
          hheap2 hpop
      have hcntw : entryCount st2.commands st2.events w.id < cfg.maxConcurrentPerWorker := by
        rw [hst2]
        exact hwfacts.2
      by_cases hcmd : m.message.type = "atomist:command"
      · rw [if_pos hcmd]
        refine ⟨hheapR, ?_, AMap.nodup_keys_set _ _ hndc2, hnde2⟩
        intro wid
        dsimp only
        have hsle := tcount_set_le m.message.invocationId
          (⟨m.dispatched, w.id⟩ : Entry) wid hndc2
        dsimp only at hsle
        have hlwid := hload2 wid
        have hcnt2 := hcntw
        unfold entryCount at hlwid hcnt2 ⊢
        by_cases hwid : w.id = wid
        · subst hwid
          simp at hsle
          omega
        · simp only [if_neg hwid] at hsle
          omega
      · rw [if_neg hcmd]
        by_cases hevt : m.message.type = "atomist:event"
        · rw [if_pos hevt]
          refine ⟨hheapR, ?_, hndc2, AMap.nodup_keys_set _ _ hnde2⟩
          intro wid
          dsimp only
          have hsle := tcount_set_le m.message.invocationId
            (⟨m.dispatched, w.id⟩ : Entry) wid hnde2
          dsimp only at hsle
          have hlwid := hload2 wid
          have hcnt2 := hcntw
          unfold entryCount at hlwid hcnt2 ⊢
          by_cases hwid : w.id = wid
          · subst hwid
            simp at hsle
            omega
          · simp only [if_neg hwid] at hsle
            omega
        · rw [if_neg hevt]
          exact ⟨hheapR, hload2, hndc2, hnde2⟩
theorem masterInv_initial (cfg : Config) : MasterInv cfg initialState := by
  refine ⟨?_, ?_, ?_, ?_⟩
  · intro i j hj _
    simp [initialState] at hj
  · intro wid
    simp [initialState, entryCount, tcount]
  · simp [initialState, AMap.keys]
  · simp [initialState, AMap.keys]

theorem masterInv_commandSuccessStep {cfg : Config} {st : MasterState}
    (h : MasterInv cfg st) (invId : String) (outcome : Outcome) :
    MasterInv cfg (commandSuccessStep st invId outcome) := by
  unfold commandSuccessStep
  cases hget : AMap.get? st.commands invId with
  | none => exact h
  | some e =>
    obtain ⟨hheap, hload, hndc, hnde⟩ := h
    refine ⟨hheap, ?_, AMap.nodup_keys_del _ hndc, hnde⟩
    intro wid
    have hd := tcount_del_le st.commands invId wid
    have hl := hload wid
    unfold entryCount at hl ⊢
    dsimp only
    omega

theorem masterInv_commandFailureStep {cfg : Config} {st : MasterState}
    (h : MasterInv cfg st) (invId : String) (outcome : Outcome) :
    MasterInv cfg (commandFailureStep st invId outcome) := by
  unfold commandFailureStep
  cases hget : AMap.get? st.commands invId with
  | none => exact h
  | some e =>
    obtain ⟨hheap, hload, hndc, hnde⟩ := h
    refine ⟨hheap, ?_, AMap.nodup_keys_del _ hndc, hnde⟩
    intro wid
    have hd := tcount_del_le st.commands invId wid
    have hl := hload wid
    unfold entryCount at hl ⊢
    dsimp only
    omega

theorem masterInv_eventSuccessStep {cfg : Config} {st : MasterState}
    (h : MasterInv cfg st) (invId : String) (outcome : Outcome) :
    MasterInv cfg (eventSuccessStep st invId outcome) := by
  unfold eventSuccessStep
  cases hget : AMap.get? st.events invId with
  | none => exact h
  | some e =>
    obtain ⟨hheap, hload, hndc, hnde⟩ := h
    refine ⟨hheap, ?_, hndc, AMap.nodup_keys_del _ hnde⟩
    intro wid
    have hd := tcount_del_le st.events invId wid
    have hl := hload wid
    unfold entryCount at hl ⊢
    dsimp only
    omega

theorem masterInv_eventFailureStep {cfg : Config} {st : MasterState}
    (h : MasterInv cfg st) (invId : String) (outcome : Outcome) :
    MasterInv cfg (eventFailureStep st invId outcome) := by
  unfold eventFailureStep
  cases hget : AMap.get? st.events invId with
  | none => exact h
  | some e =>
    obtain ⟨hheap, hload, hndc, hnde⟩ := h
    refine ⟨hheap, ?_, hndc, AMap.nodup_keys_del _ hnde⟩
    intro wid
    have hd := tcount_del_le st.events invId wid
    have hl := hload wid
    unfold entryCount at hl ⊢
    dsimp only
    omega

theorem masterInv_handleWorkerMessage (cfg : Config) (st : MasterState)
    (msg : WorkerMessage) (pick : Nat) (h : MasterInv cfg st) :
    MasterInv cfg (handleWorkerMessage cfg st msg pick).1 := by
  unfold handleWorkerMessage
  split_ifs <;>
    first
      | exact h
      | exact masterInv_startMessage cfg _ pick (masterInv_commandSuccessStep h _ _)
      | exact masterInv_startMessage cfg _ pick (masterInv_commandFailureStep h _ _)
      | exact masterInv_startMessage cfg _ pick (masterInv_eventSuccessStep h _ _)
      | exact masterInv_startMessage cfg _ pick (masterInv_eventFailureStep h _ _)
      | (split <;> first
          | exact h
          | (split <;> exact h))

theorem masterInv_invokeCommand (cfg : Config) (st : MasterState)
    (invId : String) (clientId : Nat) (ts : Int) (pick : Nat) (h : MasterInv cfg st) :
    MasterInv cfg (invokeCommand cfg st invId clientId ts pick) := by
  unfold invokeCommand
  apply masterInv_startMessage
  obtain ⟨hheap, hload, hndc, hnde⟩ := h
  refine ⟨?_, hload, hndc, hnde⟩
  exact TinyQueue.push_isHeap messagesCompare (fun a b c => messagesCompare_trans)
    (fun a b => messagesCompare_anti) _ hheap

theorem masterInv_invokeEvent (cfg : Config) (st : MasterState)
    (invId : String) (clientId : Nat) (ts : Int) (pick : Nat) (h : MasterInv cfg st) :
    MasterInv cfg (invokeEvent cfg st invId clientId ts pick) := by
  unfold invokeEvent
  apply masterInv_startMessage
  obtain ⟨hheap, hload, hndc, hnde⟩ := h
  refine ⟨?_, hload, hndc, hnde⟩
  exact TinyQueue.push_isHeap messagesCompare (fun a b c => messagesCompare_trans)
    (fun a b => messagesCompare_anti) _ hheap

theorem reachable_masterInv {cfg : Config} {st : MasterState}
    (h : Reachable cfg st) : MasterInv cfg st := by
  induction h with
  | init => exact masterInv_initial cfg
  | cmd st invId clientId ts pick _ ih => exact masterInv_invokeCommand cfg st invId clientId ts pick ih
  | evt st invId clientId ts pick _ ih => exact masterInv_invokeEvent cfg st invId clientId ts pick ih
  | reply st msg pick _ ih => exact masterInv_handleWorkerMessage cfg st msg pick ih
  | workerOnline st wid pick _ ih => exact masterInv_startMessage cfg _ pick ih
  | workerDisconnect st wid _ ih => exact ih
  | workerExit st wid _ ih => exact ih
/-! ### Deferred-store lemmas and `startMessage` observations -/

theorem get?_mapAt_self {κ ν : Type} [DecidableEq κ] (m : List (κ × ν)) (k : κ) (f : ν → ν) :
    AMap.get? (m.map (fun p => if p.1 = k then (p.1, f p.2) else p)) k =
      (AMap.get? m k).map f := by
  induction m with
  | nil => rfl
  | cons p rest ih =>
    by_cases hp : p.1 = k
    · rw [List.map_cons, if_pos hp, AMap.get?, AMap.get?,
        List.find?_cons_of_pos _ (by simpa using hp),
        List.find?_cons_of_pos _ (by simpa using hp)]
      rfl
    · rw [List.map_cons, if_neg hp, AMap.get?, AMap.get?,
        List.find?_cons_of_neg _ (by simpa using hp),
        List.find?_cons_of_neg _ (by simpa using hp)]
      exact ih

theorem get?_mapAt_ne {κ ν : Type} [DecidableEq κ] (m : List (κ × ν)) {k i : κ}
    (f : ν → ν) (hne : i ≠ k) :
    AMap.get? (m.map (fun p => if p.1 = k then (p.1, f p.2) else p)) i =
      AMap.get? m i := by
  induction m with
  | nil => rfl
  | cons p rest ih =>
    by_cases hp : p.1 = k
    · have hp' : ¬ p.1 = i := fun hh => hne (by rw [← hh]; exact hp)
      rw [List.map_cons, if_pos hp, AMap.get?, AMap.get?,
        List.find?_cons_of_neg _ (by simpa using hp'),
        List.find?_cons_of_neg _ (by simpa using hp')]
      exact ih
    · by_cases hp' : p.1 = i
      · rw [List.map_cons, if_neg hp, AMap.get?, AMap.get?,
          List.find?_cons_of_pos _ (by simpa using hp'),
          List.find?_cons_of_pos _ (by simpa using hp')]
      · rw [List.map_cons, if_neg hp, AMap.get?, AMap.get?,
          List.find?_cons_of_neg _ (by simpa using hp'),
          List.find?_cons_of_neg _ (by simpa using hp')]
        exact ih

theorem get?_resolveDeferred_self (ds : List (Nat × DeferredState)) (id : Nat) (v : Outcome) :
    AMap.get? (resolveDeferred ds id v) id =
      (AMap.get? ds id).map (fun s => s.resolveD v) := by
  unfold resolveDeferred
  exact get?_mapAt_self ds id (fun s => s.resolveD v)

theorem get?_resolveDeferred_ne (ds : List (Nat × DeferredState)) {id i : Nat} (v : Outcome)
    (hne : i ≠ id) :
    AMap.get? (resolveDeferred ds id v) i = AMap.get? ds i := by
  unfold resolveDeferred
  exact get?_mapAt_ne ds (fun s => s.resolveD v) hne

theorem startMessage_deferreds (cfg : Config) (st : MasterState) (pick : Nat) :
    ((startMessage cfg st pick).1).deferreds = st.deferreds := by
  by_cases hq : st.messages = []
  · rw [startMessage_empty cfg st pick hq]
  · rcases hA : assignWorker st cfg.maxConcurrentPerWorker pick with ⟨res, st2⟩
    have hst2 : st2 = { st with events := purgeDead st.events (candidateWorkers st),
                                commands := purgeDead st.commands (candidateWorkers st) } := by
      have hsnd := assignWorker_snd st cfg.maxConcurrentPerWorker pick
      rw [hA] at hsnd
      exact hsnd
    have hd2 : st2.deferreds = st.deferreds := by rw [hst2]
    cases res with
    | none =>
      rw [startMessage_noWorker cfg st pick hq hA]
      exact hd2
    | some w =>
      have hne2 : st2.messages ≠ [] := by rw [hst2]; exact hq
      obtain ⟨⟨m, rest⟩, hpop⟩ :=
        Option.isSome_iff_exists.mp (TinyQueue.pop_isSome messagesCompare hne2)
      rw [startMessage_dispatch cfg st pick hq hA hpop]
      by_cases hcmd : m.message.type = "atomist:command"
      · rw [if_pos hcmd]
        exact hd2
      · rw [if_neg hcmd]
        by_cases hevt : m.message.type = "atomist:event"
        · rw [if_pos hevt]
          exact hd2
        · rw [if_neg hevt]
          exact hd2
/-! ### The claims -/

/-- C1: whenever a command and an event are both pending, the queue
dequeues a command first, regardless of enqueue order: the comparator
sorts every command strictly before every non-command, and in every
reachable state a `pop` from a queue containing a command returns a
command. -/
theorem C1_command_priority :
    (∀ a b : MessageType, a.message.type = "atomist:command" →
      b.message.type ≠ "atomist:command" →
      messagesCompare a b < 0 ∧ 0 < messagesCompare b a) ∧
    (∀ (cfg : Config) (st : MasterState), Reachable cfg st →
      (∃ c ∈ st.messages, c.message.type = "atomist:command") →
      ∀ t rest, TinyQueue.pop messagesCompare st.messages = some (t, rest) →
        t.message.type = "atomist:command") := by
  constructor
  · intro a b ha hb
    constructor <;> simp [messagesCompare, ha, hb]
  · rintro cfg st hreach ⟨c, hc, hcmd⟩ t rest hpop
    have hheap := (reachable_masterInv hreach).1
    have hmin := TinyQueue.pop_min messagesCompare messagesCompare_refl
      (fun a b c => messagesCompare_trans) hheap hpop c hc
    by_contra ht
    simp [messagesCompare, ht, hcmd] at hmin

/-- Witness for C1: event "E" at t=0, command "C" at t=5, no worker; the
next dequeue is the command. -/
theorem C1_command_priority_witness :
    (TinyQueue.pop messagesCompare stQueuedEC.messages).map
      (fun p => p.1.message.type) = some "atomist:command" := by
  have h := C1_command_priority.2 cfgW stQueuedEC
    (Reachable.cmd _ "C" 0 5 0 (Reachable.evt _ "E" 0 0 0 Reachable.init))
    (by decide)
  rcases hp : TinyQueue.pop messagesCompare stQueuedEC.messages with _ | ⟨tq, rest⟩
  · exact absurd hp (by decide)
  · rw [Option.map_some']
    rw [h tq rest hp]
/-- Counterexample to C2 as stated: commands A, B, C pushed in that
order with equal enqueue timestamps (same-millisecond arrivals, same
class).  The second dequeue yields C although B arrived before C — the
binary heap does not preserve arrival order on comparator ties, so
"dispatch order equals enqueue order" fails. -/
theorem C2_arrival_order_counterexample :
    (msgTieB.message.type = msgTieC.message.type ∧ msgTieB.ts = msgTieC.ts) ∧
    tieQueue = [msgTieA, msgTieB, msgTieC] ∧
    ((TinyQueue.pop messagesCompare tieQueue).bind
      (fun p => TinyQueue.pop messagesCompare p.2)).map
        (fun p => p.1.message.invocationId) = some "C" := by decide

/-- C2 (amended): within one class the queue dequeues by enqueue
timestamp: a popped item's timestamp is no later than that of any pending
item of the same class, so an item with a strictly earlier timestamp is
dequeued first; only equal-timestamp (same-millisecond) items may leave
in either order. -/
theorem C2_same_class_timestamp_order :
    ∀ (cfg : Config) (st : MasterState), Reachable cfg st →
      ∀ t rest, TinyQueue.pop messagesCompare st.messages = some (t, rest) →
        ∀ m ∈ st.messages,
          (m.message.type = "atomist:command" ↔ t.message.type = "atomist:command") →
          t.ts ≤ m.ts := by
  intro cfg st hreach t rest hpop m hm hclass
  have hheap := (reachable_masterInv hreach).1
  have hmin := TinyQueue.pop_min messagesCompare messagesCompare_refl
    (fun a b c => messagesCompare_trans) hheap hpop m hm
  by_cases hcmd : t.message.type = "atomist:command"
  · have hm2 : m.message.type = "atomist:command" := hclass.mpr hcmd
    simp [messagesCompare, hcmd, hm2] at hmin
    omega
  · have hm2 : ¬ m.message.type = "atomist:command" := fun hc => hcmd (hclass.mp hc)
    simp [messagesCompare, hcmd, hm2] at hmin
    omega

/-- Witness for the amended C2: commands "A" (t=1) and "B" (t=2) queued
with no worker; the dequeued command's timestamp is bounded by B's. -/
theorem C2_same_class_timestamp_order_witness :
    (⟨⟨"atomist:command", "A"⟩, ⟨0, 0⟩, 1⟩ : MessageType).ts ≤
      (⟨⟨"atomist:command", "B"⟩, ⟨1, 0⟩, 2⟩ : MessageType).ts :=
  C2_same_class_timestamp_order cfgW stQueuedAB
    (Reachable.cmd _ "B" 0 2 0 (Reachable.cmd _ "A" 0 1 0 Reachable.init))
    ⟨⟨"atomist:command", "A"⟩, ⟨0, 0⟩, 1⟩ [⟨⟨"atomist:command", "B"⟩, ⟨1, 0⟩, 2⟩]
    (by decide) ⟨⟨"atomist:command", "B"⟩, ⟨1, 0⟩, 2⟩ (by decide) (by decide)
/-- Counterexample to C3 as stated: two commands are queued (no worker
yet), then a worker comes online, triggering one invocation of the
dispatch step.  Were the step a loop running "while the queue is
non-empty … stopping only when the queue is empty or no worker has
capacity", the queue would drain to length 0 (the worker has capacity 4).
Instead exactly one item is dispatched: one item remains queued while a
worker with spare capacity is still available. -/
theorem C3_single_dispatch_counterexample :
    stQueuedAB0.messages.length = 2 ∧
    (startMessage cfgW (addWorker stQueuedAB0 1) 0).1.messages.length = 1 ∧
    ((assignWorker (startMessage cfgW (addWorker stQueuedAB0 1) 0).1
      cfgW.maxConcurrentPerWorker 0).1).isSome = true := by decide

/-- C3 (amended): one invocation of `startMessage` dispatches at most one
item.  If the queue is empty it does nothing; if no candidate worker is
available it stops after the purge with the queue intact; otherwise it
pops exactly the one highest-priority item, tracks a `PendingEntry` under
the item's invocation identity with the chosen worker in the table of the
item's class, and transmits that item to that worker.  Remaining items
wait for the next trigger (enqueue, reply, or worker-online). -/
theorem C3_dispatch_step (cfg : Config) (st : MasterState) (pick : Nat) :
    (st.messages = [] → startMessage cfg st pick = (st, none)) ∧
    (∀ st2, st.messages ≠ [] →
      assignWorker st cfg.maxConcurrentPerWorker pick = (none, st2) →
      startMessage cfg st pick = (st2, none)) ∧
    (∀ w st2 m rest, st.messages ≠ [] →
      assignWorker st cfg.maxConcurrentPerWorker pick = (some w, st2) →
      TinyQueue.pop messagesCompare st2.messages = some (m, rest) →
      (startMessage cfg st pick).2 = some (m, w.id) ∧
      (startMessage cfg st pick).1.messages = rest ∧
      rest.length + 1 = st.messages.length ∧
      (m.message.type = "atomist:command" →
        AMap.get? (startMessage cfg st pick).1.commands m.message.invocationId =
          some ⟨m.dispatched, w.id⟩ ∧
        (startMessage cfg st pick).1.events = st2.events) ∧
      (m.message.type = "atomist:event" →
        AMap.get? (startMessage cfg st pick).1.events m.message.invocationId =
          some ⟨m.dispatched, w.id⟩ ∧
        (startMessage cfg st pick).1.commands = st2.commands)) := by
  refine ⟨startMessage_empty cfg st pick, fun st2 => startMessage_noWorker cfg st pick, ?_⟩
  intro w st2 m rest hne hA hpop
  have hst2 : st2 = { st with events := purgeDead st.events (candidateWorkers st),
                              commands := purgeDead st.commands (candidateWorkers st) } := by
    have hsnd := assignWorker_snd st cfg.maxConcurrentPerWorker pick
    rw [hA] at hsnd
    exact hsnd
  have hmsgs : st2.messages = st.messages := by rw [hst2]
  have hlen : rest.length + 1 = st.messages.length := by
    have hl := TinyQueue.pop_length messagesCompare hpop
    rw [hmsgs] at hl
    have : st.messages.length ≠ 0 := fun hc => hne (List.length_eq_zero.mp hc)
    omega
  rw [startMessage_dispatch cfg st pick hne hA hpop]
  by_cases hcmd : m.message.type = "atomist:command"
  · rw [if_pos hcmd]
    refine ⟨rfl, rfl, hlen, fun _ => ⟨?_, rfl⟩, fun hevt => ?_⟩
    · exact AMap.get?_set_self st2.commands m.message.invocationId ⟨m.dispatched, w.id⟩
    · rw [hcmd] at hevt
      exact absurd hevt (by decide)
  · rw [if_neg hcmd]
    by_cases hevt : m.message.type = "atomist:event"
    · rw [if_pos hevt]
      refine ⟨rfl, rfl, hlen, fun hc => absurd hc hcmd, fun _ => ⟨?_, rfl⟩⟩
      exact AMap.get?_set_self st2.events m.message.invocationId ⟨m.dispatched, w.id⟩
    · rw [if_neg hevt]
      exact ⟨rfl, rfl, hlen, fun hc => absurd hc hcmd, fun hc => absurd hc hevt⟩

/-- Witness for the amended C3: the worker-online trigger on two queued
commands dispatches exactly the first command to worker 1. -/
theorem C3_dispatch_step_witness :
    (startMessage cfgW (addWorker stQueuedAB0 1) 0).2 =
      some (⟨⟨"atomist:command", "A"⟩, ⟨0, 0⟩, 0⟩, 1) ∧
    AMap.get? (startMessage cfgW (addWorker stQueuedAB0 1) 0).1.commands "A" =
      some ⟨⟨0, 0⟩, 1⟩ := by
  have h := (C3_dispatch_step cfgW (addWorker stQueuedAB0 1) 0).2.2
    ⟨1, true⟩ (addWorker stQueuedAB0 1)
    ⟨⟨"atomist:command", "A"⟩, ⟨0, 0⟩, 0⟩
    [⟨⟨"atomist:command", "B"⟩, ⟨1, 0⟩, 1⟩]
    (by decide) (by decide) (by decide)
  exact ⟨h.1, (h.2.2.2.1 rfl).1⟩
theorem handleWorkerMessage_commandSuccess (cfg : Config) (st : MasterState)
    (inv : String) (v : Outcome) (hd : Bool) (pick : Nat) :
    handleWorkerMessage cfg st ⟨some "atomist:command_success", inv, v, hd⟩ pick =
      ((startMessage cfg (commandSuccessStep st inv v) pick).1, WorkerEffect.noop) := by
  unfold handleWorkerMessage
  dsimp only
  rw [if_neg (by decide), if_neg (by decide), if_neg (by decide), if_neg (by decide),
    if_pos rfl]

/-- What the purge inside `assignWorker` actually does: it removes from
both tables exactly the entries whose assigned worker has left
`cluster.workers` (the pool); the deferred-result store is left
byte-for-byte unchanged (nothing is resolved or rejected), and — because
the entry is gone — even a later `atomist:command_success` reply for a
purged command leaves its deferred untouched: the awaiting caller stays
pending forever.  Note the trigger is pool departure, not loss of
liveness: see `C5_disconnected_purge_code_bug`. -/
theorem assignWorker_pool_purge (st : MasterState) (mc pick : Nat) :
    ((assignWorker st mc pick).2).deferreds = st.deferreds ∧
    (∀ k e, (k, e) ∈ st.events →
      (((candidateWorkers st).any (fun w => w.id = e.worker)) = false →
        (k, e) ∉ ((assignWorker st mc pick).2).events) ∧
      (((candidateWorkers st).any (fun w => w.id = e.worker)) = true →
        (k, e) ∈ ((assignWorker st mc pick).2).events)) ∧
    (∀ k e, (k, e) ∈ st.commands →
      (((candidateWorkers st).any (fun w => w.id = e.worker)) = false →
        (k, e) ∉ ((assignWorker st mc pick).2).commands) ∧
      (((candidateWorkers st).any (fun w => w.id = e.worker)) = true →
        (k, e) ∈ ((assignWorker st mc pick).2).commands)) ∧
    ((AMap.keys st.commands).Nodup →
      ∀ k e, (k, e) ∈ st.commands →
        ((candidateWorkers st).any (fun w => w.id = e.worker)) = false →
        ∀ (cfg : Config) (v : Outcome) (hd : Bool) (pick2 : Nat),
          ((handleWorkerMessage cfg ((assignWorker st mc pick).2)
            ⟨some "atomist:command_success", k, v, hd⟩ pick2).1).deferreds =
              st.deferreds) := by
  rw [assignWorker_snd st mc pick]
  refine ⟨rfl, ?_, ?_, ?_⟩
  · intro k e hmem
    constructor
    · intro hdead hin
      have hp := (List.mem_filter.mp hin).2
      simp only [decide_eq_true_eq] at hp
      rw [hp] at hdead
      cases hdead
    · intro hlive
      exact List.mem_filter.mpr ⟨hmem, by simpa using hlive⟩
  · intro k e hmem
    constructor
    · intro hdead hin
      have hp := (List.mem_filter.mp hin).2
      simp only [decide_eq_true_eq] at hp
      rw [hp] at hdead
      cases hdead
    · intro hlive
      exact List.mem_filter.mpr ⟨hmem, by simpa using hlive⟩
  · intro hnd k e hmem hdead cfg v hd pick2
    have hgone : AMap.get? (purgeDead st.commands (candidateWorkers st)) k = none := by
      rw [AMap.get?_eq_none_iff]
      intro hin
      obtain ⟨⟨k2, v2⟩, hin2, hk2⟩ := List.mem_map.mp hin
      dsimp only at hk2
      rw [hk2] at hin2
      have hmem2 : (k, v2) ∈ st.commands := (List.mem_filter.mp hin2).1
      have hpred := (List.mem_filter.mp hin2).2
      have h1 := AMap.get?_of_mem_of_nodup hmem hnd
      have h2 := AMap.get?_of_mem_of_nodup hmem2 hnd
      rw [h1] at h2
      have hv2 : v2 = e := by
        injection h2 with h3
        exact h3.symm
      rw [hv2] at hpred
      simp only [decide_eq_true_eq] at hpred
      rw [hpred] at hdead
      cases hdead
    rw [handleWorkerMessage_commandSuccess]
    rw [startMessage_deferreds]
    unfold commandSuccessStep
    rw [hgone]

/-- C6: the `atomist:command_success` table update.  When the invocation
identity is tracked, exactly its entry is deleted (every other key of
both tables reads the same afterwards), exactly its deferred is resolved
with the supplied outcome (every other deferred reads the same); when the
identity is absent, the update is the identity function on the whole
state — it neither throws (it is total) nor changes either table. -/
theorem C6_command_success_resolution (st : MasterState) (invId : String) (outcome : Outcome) :
    (∀ e, AMap.get? st.commands invId = some e →
      (commandSuccessStep st invId outcome).events = st.events ∧
      AMap.get? (commandSuccessStep st invId outcome).commands invId = none ∧
      (∀ k, k ≠ invId →
        AMap.get? (commandSuccessStep st invId outcome).commands k =
          AMap.get? st.commands k) ∧
      (∀ i, i ≠ e.dispatched.resultId →
        AMap.get? (commandSuccessStep st invId outcome).deferreds i =
          AMap.get? st.deferreds i) ∧
      (AMap.get? st.deferreds e.dispatched.resultId = some DeferredState.pending →
        AMap.get? (commandSuccessStep st invId outcome).deferreds e.dispatched.resultId =
          some (DeferredState.resolvedD outcome))) ∧
    (AMap.get? st.commands invId = none → commandSuccessStep st invId outcome = st) := by
  constructor
  · intro e hget
    unfold commandSuccessStep
    rw [hget]
    refine ⟨rfl, ?_, ?_, ?_, ?_⟩
    · exact AMap.get?_del_self st.commands invId
    · intro k hk
      exact AMap.get?_del_ne st.commands hk
    · intro i hi
      exact get?_resolveDeferred_ne st.deferreds outcome hi
    · intro hpend
      rw [get?_resolveDeferred_self, hpend]
      rfl
  · intro hget
    unfold commandSuccessStep
    rw [hget]

/-- Witness for C6: resolving tracked command "abc" in `stCmdTracked`
resolves deferred 0 with the outcome 42 and empties the commands table. -/
theorem C6_command_success_resolution_witness :
    AMap.get? (commandSuccessStep stCmdTracked "abc" 42).commands "abc" = none ∧
    AMap.get? (commandSuccessStep stCmdTracked "abc" 42).deferreds 0 =
      some (DeferredState.resolvedD 42) ∧
    (commandSuccessStep stCmdTracked "abc" 42).events = stCmdTracked.events := by
  have h := (C6_command_success_resolution stCmdTracked "abc" 42).1
    ⟨⟨0, 7⟩, 1⟩ (by decide)
  exact ⟨h.2.1, h.2.2.2.2 (by decide), h.1⟩

/-- C7: a worker message whose `type` is missing, lacks the `atomist:`
prefix, or is an `atomist:`-prefixed kind outside the protocol table is a
no-op: the handler (a total function — nothing is thrown) returns the
state unchanged with no externally visible effect, in particular it never
exits the process. -/
theorem C7_unrecognized_message_noop (cfg : Config) (st : MasterState)
    (msg : WorkerMessage) (pick : Nat)
    (h : msg.type = none ∨
      ∃ s, msg.type = some s ∧
        (strStartsWith s "atomist:" = false ∨
          s ∉ ["atomist:online", "atomist:message", "atomist:status",
               "atomist:command_success", "atomist:command_failure",
               "atomist:event_success", "atomist:event_failure",
               "atomist:shutdown"])) :
    handleWorkerMessage cfg st msg pick = (st, WorkerEffect.noop) := by
  unfold handleWorkerMessage
  rcases h with hnone | ⟨s, hs, hrest⟩
  · rw [if_neg (by simp [hnone]), if_pos (Or.inl hnone)]
  · rw [hs]
    rcases hrest with hpre | hnin
    · have hon : s ≠ "atomist:online" := by
        intro hcon
        rw [hcon] at hpre
        exact absurd hpre (by decide)
      rw [if_neg (by simpa using hon), if_pos (Or.inr (by simp [hpre]))]
    · simp only [List.mem_cons, List.not_mem_nil, or_false, not_or] at hnin
      obtain ⟨hn1, hn2, hn3, hn4, hn5, hn6, hn7, hn8⟩ := hnin
      by_cases hpre2 : strStartsWith s "atomist:"
      · rw [if_neg (by simpa using hn1), if_neg (by simp [hpre2]),
          if_neg (by simpa using hn2), if_neg (by simpa using hn3),
          if_neg (by simpa using hn4), if_neg (by simpa using hn5),
          if_neg (by simpa using hn6), if_neg (by simpa using hn7),
          if_neg (by simpa using hn8)]
      · rw [if_neg (by simpa using hn1), if_pos (Or.inr (by simpa using hpre2))]

/-- Witness for C7: an `atomist:registration` message (a kind outside the
protocol table) leaves the tracked state `stCmdTracked` untouched. -/
theorem C7_unrecognized_message_noop_witness :
    handleWorkerMessage cfgW stCmdTracked ⟨some "atomist:registration", "x", 0, false⟩ 0 =
      (stCmdTracked, WorkerEffect.noop) :=
  C7_unrecognized_message_noop cfgW stCmdTracked ⟨some "atomist:registration", "x", 0, false⟩ 0
    (Or.inr ⟨"atomist:registration", rfl, Or.inr (by decide)⟩)
/-- C8: `reportQueueLength` emits, when statsd is enabled and an instance
exists, exactly the three gauges with the literal queue length and the
two table sizes at sampling time; with the sink disabled (or no
instance) it emits nothing; in every case the engine state is returned
unchanged — reporting never modifies the queue or the tables.  (Table
size is the entry count of the association list, which equals the JS
`Map.size` since the keys are distinct.) -/
theorem C8_metrics_report (cfg : Config) (st : MasterState) :
    reportQueueLength cfg st =
      (st, if cfg.statsdEnabled ∧ cfg.statsdInstance then
        [⟨"work_queue.pending", st.messages.length⟩,
         ⟨"work_queue.events", st.events.length⟩,
         ⟨"work_queue.commands", st.commands.length⟩]
      else []) := by
  unfold reportQueueLength
  by_cases h1 : cfg.statsdEnabled <;> by_cases h2 : cfg.statsdInstance <;>
    simp [h1, h2]

/-- C9: an `atomist:message` worker message is forwarded through the
message client of the `PendingEntry` found under its invocation identity,
consulting the commands table before the events table (`send` when
destinations are present, `respond` otherwise); when neither table has
the identity it is dropped with an error effect; in every case the
handler neither throws (it is total) nor modifies the queue or the
tables, and never exits the process. -/
theorem C9_worker_message_forwarding (cfg : Config) (st : MasterState)
    (invId : String) (d : Outcome) (hd : Bool) (pick : Nat) :
    handleWorkerMessage cfg st ⟨some "atomist:message", invId, d, hd⟩ pick =
      (st, match AMap.get? st.commands invId with
        | some e =>
          if hd then WorkerEffect.forwardSend e.dispatched.clientId
          else WorkerEffect.forwardRespond e.dispatched.clientId
        | none =>
          match AMap.get? st.events invId with
          | some e =>
            if hd then WorkerEffect.forwardSend e.dispatched.clientId
            else WorkerEffect.forwardRespond e.dispatched.clientId
          | none => WorkerEffect.droppedMissingClient) := by
  unfold handleWorkerMessage
  dsimp only
  rw [if_neg (by decide), if_neg (by decide), if_pos rfl]
  cases AMap.get? st.commands invId with
  | some e => rfl
  | none =>
    cases AMap.get? st.events invId with
    | some e => rfl
    | none => rfl

/-- C10: the health indicator registered in the constructor reports `Up`
exactly when the websocket lifecycle is connected and a registration
confirmation is present, `Down` otherwise; in both cases the detail
carries the invocation identities currently in the commands table and in
the events table. -/
theorem C10_health_indicator (connected registered : Bool) (st : MasterState) :
    healthIndicator connected registered st =
      ⟨if connected = true ∧ registered = true then HealthStatusM.up else HealthStatusM.down,
       AMap.keys st.commands, AMap.keys st.events⟩ := by
  unfold healthIndicator
  by_cases h1 : connected <;> by_cases h2 : registered <;> simp [h1, h2]

/-- C4 (code bug, `assignWorker` line 588): the candidate guard
`if (worker.isConnected)` references the `cluster.Worker.isConnected`
method without calling it, and a function object is always truthy, so
candidacy ignores connection state.  In `stDisc` no worker is live
(every pool worker reports disconnected), yet `assignWorker` returns the
disconnected worker 1 instead of none — refuting "returns none when all
live workers are saturated or no worker is live" on the program.  All
other parts of the claim hold of the code: the load bound over both
tables is `reachable_masterInv`, a returned worker is always strictly
below the limit (`assignWorker_some`), and every unsaturated pool worker
is a possible draw (`assignWorker_pick_exists`). -/
theorem C4_liveness_check_code_bug :
    (∀ w ∈ stDisc.workers, w.isConnected = false) ∧
    (assignWorker stDisc 4 0).1 = some ⟨1, false⟩ := by decide

/-- C5 (code bug, same vacuous `isConnected` test): the purge removes an
entry only when its assigned worker has left `cluster.workers` entirely.
Worker 1 of `stDisc` is no longer live (disconnected) but its process
has not exited, so it is still in the pool: its in-flight command
`"abc"` survives the next assignment pass, refuting "removes every entry
… whose assigned worker equals that dead worker" on the program.  The
contrast case holds: worker 9 of `stDead` has exited (left the pool) and
its entry is purged, without its deferred being resolved or rejected
(`assignWorker_pool_purge`). -/
theorem C5_disconnected_purge_code_bug :
    (⟨1, false⟩ : ClusterWorker).isConnected = false ∧
    ("abc", (⟨⟨0, 7⟩, 1⟩ : Entry)) ∈ stDisc.commands ∧
    ("abc", (⟨⟨0, 7⟩, 1⟩ : Entry)) ∈ ((assignWorker stDisc 4 0).2).commands ∧
    (("abc", (⟨⟨0, 7⟩, 9⟩ : Entry)) ∈ stDead.commands ∧
      ("abc", (⟨⟨0, 7⟩, 9⟩ : Entry)) ∉ ((assignWorker stDead 4 0).2).commands ∧
      ((assignWorker stDead 4 0).2).deferreds = stDead.deferreds) := by decide
